import Mathlib

/-!
Shallow embedding of the Go package `schema` (src/schema.go): a schema
validation and coercion engine over dynamically typed values.  Go
`interface{}` values are modelled by the inductive type `Value`; the Go
`nil` interface is `Value.absent`.  Go's randomized map iteration is made
explicit: a mapping value carries its entries as a list, whose order plays
the role of the enumeration order.  Panics (both explicit `panic` calls and
runtime panics such as calling a method on a nil `reflect.Type`) are
modelled by the `Res.panicked` constructor, which propagates through every
checker, including the alternative ones.
-/

/-- Width tag of a Go integer kind accepted by `intC` (reflect.Int,
Int8, Int16, Int32, Int64). -/
inductive IntW where
  | i
  | i8
  | i16
  | i32
  | i64
deriving DecidableEq, Repr

/-- Width tag of a Go float kind accepted by `floatC` (reflect.Float32,
Float64). -/
inductive FloatW where
  | f32
  | f64
deriving DecidableEq, Repr

/-- A dynamically typed Go value (`interface{}`) as decoded from
JSON/YAML-like documents.  `absent` is the nil interface.  Integer and
float payloads carry their numeric value (float32 embeds exactly into
float64, so a single numeric payload is faithful); NaN and infinities are
outside the model.  A `map` carries its entries in an explicit list whose
order stands for Go's implementation-defined iteration order. -/
inductive Value where
  | absent
  | bool (b : Bool)
  | int (w : IntW) (n : Int)
  | float (w : FloatW) (x : Rat)
  | str (s : String)
  | list (xs : List Value)
  | map (entries : List (Value × Value))

mutual

/-- Decidable equality on values, written by hand because the deriving
handler does not support nested inductives. -/
def Value.decEq : (a b : Value) → Decidable (a = b)
  | .absent, .absent => isTrue rfl
  | .bool a, .bool b =>
      if h : a = b then isTrue (by rw [h]) else isFalse (by intro hh; cases hh; exact h rfl)
  | .int w n, .int w2 n2 =>
      if h : w = w2 ∧ n = n2 then isTrue (by rw [h.1, h.2])
      else isFalse (by intro hh; cases hh; exact h ⟨rfl, rfl⟩)
  | .float w x, .float w2 x2 =>
      if h : w = w2 ∧ x = x2 then isTrue (by rw [h.1, h.2])
      else isFalse (by intro hh; cases hh; exact h ⟨rfl, rfl⟩)
  | .str s, .str t =>
      if h : s = t then isTrue (by rw [h]) else isFalse (by intro hh; cases hh; exact h rfl)
  | .list xs, .list ys =>
      match Value.decEqList xs ys with
      | isTrue h => isTrue (by rw [h])
      | isFalse h => isFalse (by intro hh; cases hh; exact h rfl)
  | .map m, .map m2 =>
      match Value.decEqEntries m m2 with
      | isTrue h => isTrue (by rw [h])
      | isFalse h => isFalse (by intro hh; cases hh; exact h rfl)
  | .absent, .bool _ | .absent, .int _ _ | .absent, .float _ _ | .absent, .str _
  | .absent, .list _ | .absent, .map _ => isFalse nofun
  | .bool _, .absent | .bool _, .int _ _ | .bool _, .float _ _ | .bool _, .str _
  | .bool _, .list _ | .bool _, .map _ => isFalse nofun
  | .int _ _, .absent | .int _ _, .bool _ | .int _ _, .float _ _ | .int _ _, .str _
  | .int _ _, .list _ | .int _ _, .map _ => isFalse nofun
  | .float _ _, .absent | .float _ _, .bool _ | .float _ _, .int _ _ | .float _ _, .str _
  | .float _ _, .list _ | .float _ _, .map _ => isFalse nofun
  | .str _, .absent | .str _, .bool _ | .str _, .int _ _ | .str _, .float _ _
  | .str _, .list _ | .str _, .map _ => isFalse nofun
  | .list _, .absent | .list _, .bool _ | .list _, .int _ _ | .list _, .float _ _
  | .list _, .str _ | .list _, .map _ => isFalse nofun
  | .map _, .absent | .map _, .bool _ | .map _, .int _ _ | .map _, .float _ _
  | .map _, .str _ | .map _, .list _ => isFalse nofun

/-- Decidable equality on lists of values. -/
def Value.decEqList : (xs ys : List Value) → Decidable (xs = ys)
  | [], [] => isTrue rfl
  | [], _ :: _ => isFalse nofun
  | _ :: _, [] => isFalse nofun
  | x :: xs, y :: ys =>
      match Value.decEq x y, Value.decEqList xs ys with
      | isTrue h1, isTrue h2 => isTrue (by rw [h1, h2])
      | isFalse h1, _ => isFalse (by intro hh; cases hh; exact h1 rfl)
      | _, isFalse h2 => isFalse (by intro hh; cases hh; exact h2 rfl)

/-- Decidable equality on entry lists of mappings. -/
def Value.decEqEntries : (xs ys : List (Value × Value)) → Decidable (xs = ys)
  | [], [] => isTrue rfl
  | [], _ :: _ => isFalse nofun
  | _ :: _, [] => isFalse nofun
  | (k, v) :: xs, (k2, v2) :: ys =>
      match Value.decEq k k2, Value.decEq v v2, Value.decEqEntries xs ys with
      | isTrue h1, isTrue h2, isTrue h3 => isTrue (by rw [h1, h2, h3])
      | isFalse h1, _, _ => isFalse (by intro hh; cases hh; exact h1 rfl)
      | _, isFalse h2, _ => isFalse (by intro hh; cases hh; exact h2 rfl)
      | _, _, isFalse h3 => isFalse (by intro hh; cases hh; exact h3 rfl)

end

instance : DecidableEq Value := Value.decEq

/-- The Go `error` struct of src/schema.go: expected description `want`,
offending value `got` (`Value.absent` models the nil interface), and the
path at which the mismatch occurred. -/
structure SchemaError where
  want : String
  got : Value
  path : List String
deriving DecidableEq

/-- Outcome of one `Coerce` call: a coerced value, a `SchemaError`, or a
panic (runtime or explicit) that unwinds the whole coercion. -/
inductive Res where
  | ok (v : Value)
  | err (e : SchemaError)
  | panicked (msg : String)
deriving DecidableEq

/-- Message of the runtime panic raised by `reflect.TypeOf(v).Kind()` when
`v` is the nil interface: `TypeOf` returns a nil `reflect.Type` and the
method call on the nil interface panics. -/
def nilTypeOfPanic : String := "runtime error: invalid memory address or nil pointer dereference"

/-- Message of the runtime panic raised by calling `Coerce` on a nil
`Checker` interface value (a `mapSetC` whose `fields` map lacks the
selector). -/
def nilCheckerPanic : String := "runtime error: invalid memory address or nil pointer dereference (nil Checker)"

/-- Go map lookup `rv.MapIndex(reflect.ValueOf(k))` on the entry list:
first entry with an equal key (Go map keys are unique, so at most one
matches).  `none` is an invalid `reflect.Value` (key missing); note that a
key present with a nil value yields `some Value.absent`. -/
def lookupVal : List (Value × Value) → Value → Option Value
  | [], _ => none
  | (k0, v0) :: rest, k => if k0 = k then some v0 else lookupVal rest k

/-- A composable validation rule: one constructor per concrete checker of
src/schema.go.  `mapSetC` stores, as the Go struct does, the `fieldMapC`
data (fields, optional) of each candidate. -/
inductive Checker where
  | anyC
  | constC (value : Value)
  | oneOfC (options : List Checker)
  | boolC
  | intC
  | floatC
  | stringC
  | sregexpC
  | listC (elem : Checker)
  | mapC (key : Checker) (value : Checker)
  | fieldMapC (fields : List (String × Checker)) (optional : List String)
  | mapSetC (selector : String) (fmaps : List (List (String × Checker) × List String))

/-- Go `Fields` map lookup `fields[name]`: first entry with that name
(Go map keys are unique, so at most one matches). -/
def lookupField : List (String × Checker) → String → Option Checker
  | [], _ => none
  | (k0, c0) :: rest, k => if k0 = k then some c0 else lookupField rest k

/-- Go map assignment `out[k] = v` on the entry list: overwrite the value
of an existing equal key, otherwise add the entry. -/
def insertGo (out : List (Value × Value)) (k v : Value) : List (Value × Value) :=
  match out with
  | [] => [(k, v)]
  | (k0, v0) :: rest => if k0 = k then (k0, v) :: rest else (k0, v0) :: insertGo rest k v

mutual

/-- The `reflect.DeepEqual` comparison used by `constC`: structural on
scalars and sequences (after a type check, captured by the width tags),
content-based on maps (equal length, and every entry of the first map is
present in the second with a deep-equal value under the same key). -/
def deepEqual : Value → Value → Bool
  | .absent, b => match b with | .absent => true | _ => false
  | .bool a, b => match b with | .bool b0 => a == b0 | _ => false
  | .int w n, b => match b with | .int w2 n2 => w == w2 && n == n2 | _ => false
  | .float w x, b => match b with | .float w2 x2 => w == w2 && x == x2 | _ => false
  | .str s, b => match b with | .str t => s == t | _ => false
  | .list xs, b => match b with | .list ys => deepEqualList xs ys | _ => false
  | .map m, b =>
      match b with
      | .map m2 => m.length == m2.length && deepEqualSub m m2
      | _ => false

/-- Elementwise `reflect.DeepEqual` on sequences. -/
def deepEqualList : List Value → List Value → Bool
  | [], ys => ys.isEmpty
  | _ :: _, [] => false
  | x :: xs, y :: ys => deepEqual x y && deepEqualList xs ys

/-- Containment half of `reflect.DeepEqual` on maps: every key of the
first map is present in the second with a deep-equal value. -/
def deepEqualSub : List (Value × Value) → List (Value × Value) → Bool
  | [], _ => true
  | (k, x) :: rest, m2 =>
      (match lookupVal m2 k with
       | some y => deepEqual x y
       | none => false) && deepEqualSub rest m2

end

/-- Rendering a float payload for `fmt` verbs.  The exact Go float
formatting is abstracted; no claim depends on it. -/
def goSprintFloat (x : Rat) : String := toString x.num ++ "_" ++ toString x.den

mutual

/-- The `fmt.Sprint` (`%v`) rendering of a value, used by `mapC` to build
the key segment of the value path. -/
def goSprint : Value → String
  | .absent => "<nil>"
  | .bool b => if b then "true" else "false"
  | .int _ n => toString n
  | .float _ x => goSprintFloat x
  | .str s => s
  | .list xs => "[" ++ goSprintList xs ++ "]"
  | .map m => "map[" ++ goSprintEntries m ++ "]"

/-- Space-separated `fmt.Sprint` rendering of sequence elements. -/
def goSprintList : List Value → String
  | [] => ""
  | [x] => goSprint x
  | x :: rest => goSprint x ++ " " ++ goSprintList rest

/-- Space-separated `k:v` rendering of map entries. -/
def goSprintEntries : List (Value × Value) → String
  | [] => ""
  | [(k, v)] => goSprint k ++ ":" ++ goSprint v
  | (k, v) :: rest => goSprint k ++ ":" ++ goSprint v ++ " " ++ goSprintEntries rest

end

mutual

/-- The `fmt.Sprintf("%#v", ...)` Go-syntax rendering, used by `constC`
for the expected description and by `error.String` for the offending
value.  Composite renderings are approximate; no claim depends on them. -/
def goReprSharp : Value → String
  | .absent => "<nil>"
  | .bool b => if b then "true" else "false"
  | .int _ n => toString n
  | .float _ x => goSprintFloat x
  | .str s => "\"" ++ s ++ "\""
  | .list xs => "[]interface \x7b\x7d\x7b" ++ goReprList xs ++ "\x7d"
  | .map m => "map[interface \x7b\x7d]interface \x7b\x7d\x7b" ++ goReprEntries m ++ "\x7d"

/-- Comma-separated `%#v` rendering of sequence elements. -/
def goReprList : List Value → String
  | [] => ""
  | [x] => goReprSharp x
  | x :: rest => goReprSharp x ++ ", " ++ goReprList rest

/-- Comma-separated `k:v` rendering of map entries under `%#v`. -/
def goReprEntries : List (Value × Value) → String
  | [] => ""
  | [(k, v)] => goReprSharp k ++ ":" ++ goReprSharp v
  | (k, v) :: rest => goReprSharp k ++ ":" ++ goReprSharp v ++ ", " ++ goReprEntries rest

end

/-- Modelled from the spec: the standard library `regexp.Compile` check
used by `sregexpC` is external to this repository; it is abstracted by a
total executable predicate on strings (here: balanced parentheses).  The
only fact the code relies on is that it is a fixed function of the
string; no claim depends on which strings compile. -/
def regexpCompiles (s : String) : Bool :=
  (s.foldl
    (fun acc c =>
      match acc with
      | none => none
      | some d => if c = '(' then some (d + 1) else if c = ')' then (if d = 0 then none else some (d - 1)) else some d)
    (some (0 : Nat))) = some 0

/-- Membership test of `fieldMapC.isOptional`: a linear scan of the
optional names. -/
def isOptional (optional : List String) (key : String) : Bool :=
  match optional with
  | [] => false
  | k :: rest => if k = key then true else isOptional rest key

/-- Sizes of checkers are positive (used by the termination argument of
`coerce`). -/
theorem Checker.one_le_sizeOf : (c : Checker) → 1 ≤ sizeOf c := by
  intro c
  cases c <;> simp <;> omega

/-- A checker found in a field list is smaller than the list (used by the
termination argument of `coerce`). -/
theorem lookupField_sizeOf_lt :
    ∀ (f : List (String × Checker)) (s : String) (c : Checker),
      lookupField f s = some c → sizeOf c < sizeOf f := by
  intro f
  induction f with
  | nil => intro s c h; simp [lookupField] at h
  | cons hd tl ih =>
      obtain ⟨k0, c0⟩ := hd
      intro s c h
      simp only [lookupField] at h
      split at h
      · cases h
        simp
        omega
      · have := ih s c h
        simp
        omega

/-- A value found in an entry list is smaller than the list (used by the
termination argument of `coerce`). -/
theorem lookupVal_sizeOf_lt :
    ∀ (entries : List (Value × Value)) (k x : Value),
      lookupVal entries k = some x → sizeOf x < sizeOf entries := by
  intro entries
  induction entries with
  | nil => intro k x h; simp [lookupVal] at h
  | cons hd tl ih =>
      obtain ⟨k0, v0⟩ := hd
      intro k x h
      simp only [lookupVal] at h
      split at h
      · cases h
        simp
        omega
      · have := ih k x h
        simp
        omega

mutual

/-- The `Coerce` dispatch of src/schema.go, one case per concrete checker.
The `anyC`, `constC`, `boolC`, `intC`, `floatC`, `stringC` and `sregexpC`
cases are the bodies of the corresponding `Coerce` methods; the composite
checkers delegate their loops to the companion functions below.  The
`.absent` (nil interface) cases of the scalar checkers model the runtime
panic of `reflect.TypeOf(v).Kind()` on the nil interface. -/
def coerce (c : Checker) (v : Value) (path : List String) : Res :=
  match c with
  | .anyC => .ok v
  | .constC value =>
      if deepEqual v value then .ok v
      else .err ⟨goReprSharp value, v, path⟩
  | .oneOfC options => coerceOneOf options v path
  | .boolC =>
      match v with
      | .absent => .panicked nilTypeOfPanic
      | .bool b => .ok (.bool b)
      | _ => .err ⟨"bool", v, path⟩
  | .intC =>
      match v with
      | .absent => .panicked nilTypeOfPanic
      | .int _ n => .ok (.int .i64 n)
      | _ => .err ⟨"int", v, path⟩
  | .floatC =>
      match v with
      | .absent => .panicked nilTypeOfPanic
      | .float _ x => .ok (.float .f64 x)
      | _ => .err ⟨"float", v, path⟩
  | .stringC =>
      match v with
      | .absent => .panicked nilTypeOfPanic
      | .str s => .ok (.str s)
      | _ => .err ⟨"string", v, path⟩
  | .sregexpC =>
      match v with
      | .absent => .panicked nilTypeOfPanic
      | .str s =>
          if regexpCompiles s then .ok (.str s) else .err ⟨"valid regexp", .str s, path⟩
      | _ => .err ⟨"regexp string", v, path⟩
  | .listC elem =>
      match v with
      | .list xs => coerceListElems elem xs 0 [] path
      | _ => .err ⟨"list", v, path⟩
  | .mapC key value =>
      match v with
      | .map entries => coerceMapEntries key value entries [] path
      | _ => .err ⟨"map", v, path⟩
  | .fieldMapC fields optional =>
      match v with
      | .map entries => coerceFields fields optional entries path []
      | _ => .err ⟨"map", v, path⟩
  | .mapSetC selector fmaps =>
      match v with
      | .map entries =>
          match lookupVal entries (.str selector) with
          | none => .err ⟨"supported selector", .absent, path ++ [".", selector]⟩
          | some selv => coerceMapSet selector fmaps selv (.map entries) path
      | _ => .err ⟨"map", v, path⟩
termination_by (sizeOf c, 0)
decreasing_by
  all_goals simp_wf
  all_goals try apply Prod.Lex.right
  all_goals try apply Prod.Lex.left
  all_goals try simp
  all_goals omega

/-- The probing loop of `oneOfC.Coerce`: try each option in order, return
the first success, discard validation errors while probing, and report
`error\x7bpath: path\x7d` (empty want, nil got) when every option fails.
A panic while probing unwinds the whole call. -/
def coerceOneOf (options : List Checker) (v : Value) (path : List String) : Res :=
  match options with
  | [] => .err ⟨"", .absent, path⟩
  | o :: rest =>
      match coerce o v path with
      | .ok w => .ok w
      | .err _ => coerceOneOf rest v path
      | .panicked m => .panicked m
termination_by (sizeOf options, 0)
decreasing_by
  all_goals simp_wf
  all_goals try apply Prod.Lex.right
  all_goals try apply Prod.Lex.left
  all_goals try simp
  all_goals omega

/-- The element loop of `listC.Coerce`: element `i` is coerced at the path
extended by the placeholder pair with the decimal rendering of `i`; the
first failure is returned as is; on success the coerced elements are
accumulated in order. -/
def coerceListElems (elem : Checker) (xs : List Value) (i : Nat) (out : List Value) (path : List String) : Res :=
  match xs with
  | [] => .ok (.list out)
  | x :: rest =>
      match coerce elem x (path ++ ["[", toString i, "]"]) with
      | .ok w => coerceListElems elem rest (i + 1) (out ++ [w]) path
      | .err e => .err e
      | .panicked m => .panicked m
termination_by (sizeOf elem, sizeOf xs)
decreasing_by
  all_goals simp_wf
  all_goals try apply Prod.Lex.right
  all_goals try apply Prod.Lex.left
  all_goals try simp
  all_goals omega

/-- The entry loop of `mapC.Coerce`: the key is coerced at the unextended
path, the value at the path extended by the key placeholder carrying the
`fmt.Sprint` rendering of the original key; the first failure is returned
as is; successful pairs are written into the output map. -/
def coerceMapEntries (key : Checker) (value : Checker) (entries : List (Value × Value)) (out : List (Value × Value)) (path : List String) : Res :=
  match entries with
  | [] => .ok (.map out)
  | (k, x) :: rest =>
      match coerce key k path with
      | .ok newk =>
          match coerce value x (path ++ [".", goSprint k]) with
          | .ok newv => coerceMapEntries key value rest (insertGo out newk newv) path
          | .err e => .err e
          | .panicked m => .panicked m
      | .err e => .err e
      | .panicked m => .panicked m
termination_by (sizeOf key + sizeOf value, sizeOf entries)
decreasing_by
  all_goals simp_wf
  all_goals try apply Prod.Lex.right
  all_goals try apply Prod.Lex.left
  all_goals try (have h9 := Checker.one_le_sizeOf value; have h8 := Checker.one_le_sizeOf key)
  all_goals try simp
  all_goals omega

/-- The field loop of `fieldMapC.Coerce`: for each declared field, look the
name up in the input; a present value (possibly nil) is coerced at the
path extended by the field name; an absent optional field is skipped; an
absent required field makes the checker coerce the nil interface; the
first failure is returned as is; successful fields are written into the
output map under the field name. -/
def coerceFields (fields : List (String × Checker)) (optional : List String) (entries : List (Value × Value)) (path : List String) (out : List (Value × Value)) : Res :=
  match fields with
  | [] => .ok (.map out)
  | (k, checker) :: rest =>
      match lookupVal entries (.str k) with
      | none =>
          if isOptional optional k then coerceFields rest optional entries path out
          else
            match coerce checker .absent (path ++ [".", k]) with
            | .ok newv => coerceFields rest optional entries path (insertGo out (.str k) newv)
            | .err e => .err e
            | .panicked m => .panicked m
      | some x =>
          match coerce checker x (path ++ [".", k]) with
          | .ok newv => coerceFields rest optional entries path (insertGo out (.str k) newv)
          | .err e => .err e
          | .panicked m => .panicked m
termination_by (sizeOf fields, 0)
decreasing_by
  all_goals simp_wf
  all_goals try apply Prod.Lex.right
  all_goals try apply Prod.Lex.left
  all_goals try simp
  all_goals omega

/-- The candidate loop of `mapSetC.Coerce`: probe each candidate's
selector-field checker against the raw selector value at the unextended
path; on the first accepting candidate coerce the whole input with that
candidate's full `fieldMapC`; when every probe fails report
"supported selector" with the raw selector value; a candidate without the
selector field holds a nil `Checker`, whose method call panics. -/
def coerceMapSet (selector : String) (fmaps : List (List (String × Checker) × List String)) (selv : Value) (v : Value) (path : List String) : Res :=
  match fmaps with
  | [] => .err ⟨"supported selector", selv, path ++ [".", selector]⟩
  | (f, o) :: rest =>
      match hl : lookupField f selector with
      | none => .panicked nilCheckerPanic
      | some ck =>
          match coerce ck selv path with
          | .ok _ => coerce (.fieldMapC f o) v path
          | .err _ => coerceMapSet selector rest selv v path
          | .panicked m => .panicked m
termination_by (sizeOf fmaps, 0)
decreasing_by
  all_goals simp_wf
  all_goals try apply Prod.Lex.right
  all_goals try apply Prod.Lex.left
  all_goals try (have h9 := lookupField_sizeOf_lt f selector ck hl)
  all_goals try simp
  all_goals omega

end

/-- The checking loop of the `FieldMapSet` constructor: each supplied
checker must be a `fieldMapC` (else `panic("FieldMapSet got a
non-FieldMap checker")`) and its fields must contain the selector (else
`panic("FieldMapSet has a FieldMap with a missing selector")`); the
construction-time panics are modelled by `Except.error` carrying the Go
panic message.  On success the candidates' `fieldMapC` data is collected
in order. -/
def collectFieldMaps (selector : String) : List Checker → Except String (List (List (String × Checker) × List String))
  | [] => .ok []
  | m :: rest =>
      match m with
      | .fieldMapC f o =>
          match lookupField f selector with
          | none => .error "FieldMapSet has a FieldMap with a missing selector"
          | some _ =>
              match collectFieldMaps selector rest with
              | .ok fs => .ok ((f, o) :: fs)
              | .error e => .error e
      | _ => .error "FieldMapSet got a non-FieldMap checker"

/-- The `FieldMapSet` constructor of src/schema.go: validates every
candidate at construction time and returns the `mapSetC` checker; a
defective candidate is a construction-time panic (`Except.error`), never
a value-level `SchemaError`. -/
def FieldMapSet (selector : String) (maps : List Checker) : Except String Checker :=
  match collectFieldMaps selector maps with
  | .ok fmaps => .ok (.mapSetC selector fmaps)
  | .error e => .error e

/-- The `error.String` method: the leading path segment is inspected
unconditionally (`e.path[0]`), so an empty path is an out-of-range
runtime panic, modelled by `Except.error`; otherwise the path segments
are joined (dropping a single leading "." sentinel) and the message is
rendered according to the two degenerate forms. -/
def errorString (e : SchemaError) : Except String String :=
  match e.path with
  | [] => .error "runtime error: index out of range"
  | p0 :: rest =>
      let pathStr := if p0 = "." then String.join rest else String.join (p0 :: rest)
      if e.want = "" then .ok (pathStr ++ ": unsupported value")
      else if e.got = .absent then .ok (pathStr ++ ": expected " ++ e.want ++ ", got nothing")
      else .ok (pathStr ++ ": expected " ++ e.want ++ ", got " ++ goReprSharp e.got)

/-- Unfolding equation: `oneOfC` delegates to its probing loop. -/
theorem coerce_oneOfC (options : List Checker) (v : Value) (path : List String) :
    coerce (.oneOfC options) v path = coerceOneOf options v path := by
  simp [coerce]

/-- Unfolding equation: `listC` on a sequence delegates to its element
loop, starting at index 0 with an empty accumulator. -/
theorem coerce_listC_list (elem : Checker) (xs : List Value) (path : List String) :
    coerce (.listC elem) (.list xs) path = coerceListElems elem xs 0 [] path := by
  simp [coerce]

/-- Unfolding equation: `mapC` on a mapping delegates to its entry loop
with an empty output map. -/
theorem coerce_mapC_map (key value : Checker) (entries : List (Value × Value)) (path : List String) :
    coerce (.mapC key value) (.map entries) path = coerceMapEntries key value entries [] path := by
  simp [coerce]

/-- Unfolding equation: `fieldMapC` on a mapping delegates to its field
loop with an empty output map. -/
theorem coerce_fieldMapC_map (fields : List (String × Checker)) (optional : List String) (entries : List (Value × Value)) (path : List String) :
    coerce (.fieldMapC fields optional) (.map entries) path = coerceFields fields optional entries path [] := by
  simp [coerce]

/-- Unfolding equation: `mapSetC` on a mapping looks the selector up and
either fails (absent selector) or runs the candidate loop. -/
theorem coerce_mapSetC_map (selector : String) (fmaps : List (List (String × Checker) × List String)) (entries : List (Value × Value)) (path : List String) :
    coerce (.mapSetC selector fmaps) (.map entries) path =
      match lookupVal entries (.str selector) with
      | none => .err ⟨"supported selector", .absent, path ++ [".", selector]⟩
      | some selv => coerceMapSet selector fmaps selv (.map entries) path := by
  simp [coerce]

/-- C1: with field "a" declared `Bool()` and required, `fieldMapC.Coerce`
on the empty mapping does invoke the field checker with the nil
interface, but `boolC.Coerce` then calls `reflect.TypeOf(nil).Kind()`,
which panics (method call on a nil `reflect.Type`); so the call aborts
with a runtime panic instead of returning the "expected bool, got
nothing" validation error the spec promises. -/
theorem C1_missing_required_bool_panics :
    coerce .boolC .absent [".", ".", "a"] = .panicked nilTypeOfPanic ∧
    coerce (.fieldMapC [("a", .boolC)] []) (.map []) ["."] = .panicked nilTypeOfPanic := by
  constructor
  · simp [coerce]
  · simp [coerce, coerceFields, lookupVal, isOptional]

/-- C6: every accepted integer width is returned as a 64-bit integer of
equal numeric value, and analogously for floats; every non-integer
non-nil input is rejected with expected description "int" ("float"); but
the nil interface, instead of being rejected, panics in
`reflect.TypeOf(nil).Kind()`. -/
theorem C6_int_float_normalization :
    (∀ (w : IntW) (n : Int) (path : List String),
        coerce .intC (.int w n) path = .ok (.int .i64 n)) ∧
    (∀ (w : FloatW) (x : Rat) (path : List String),
        coerce .floatC (.float w x) path = .ok (.float .f64 x)) ∧
    (∀ (v : Value) (path : List String), (∀ w n, v ≠ .int w n) → v ≠ .absent →
        coerce .intC v path = .err ⟨"int", v, path⟩) ∧
    (∀ (v : Value) (path : List String), (∀ w x, v ≠ .float w x) → v ≠ .absent →
        coerce .floatC v path = .err ⟨"float", v, path⟩) ∧
    coerce .intC .absent [] = .panicked nilTypeOfPanic ∧
    coerce .floatC .absent [] = .panicked nilTypeOfPanic := by
  refine ⟨?_, ?_, ?_, ?_, ?_, ?_⟩
  · intro w n path
    simp [coerce]
  · intro w x path
    simp [coerce]
  · intro v path hni hna
    cases v with
    | absent => exact absurd rfl hna
    | int w n => exact absurd rfl (hni w n)
    | bool b => simp [coerce]
    | float w x => simp [coerce]
    | str s => simp [coerce]
    | list xs => simp [coerce]
    | map m => simp [coerce]
  · intro v path hnf hna
    cases v with
    | absent => exact absurd rfl hna
    | float w x => exact absurd rfl (hnf w x)
    | int w n => simp [coerce]
    | bool b => simp [coerce]
    | str s => simp [coerce]
    | list xs => simp [coerce]
    | map m => simp [coerce]
  · simp [coerce]
  · simp [coerce]

/-- Witness for C6 at concrete inputs: a string is rejected with "int"
and a boolean with "float". -/
theorem C6_witness :
    coerce .intC (.str "x") [] = .err ⟨"int", .str "x", []⟩ ∧
    coerce .floatC (.bool true) [] = .err ⟨"float", .bool true, []⟩ :=
  ⟨C6_int_float_normalization.2.2.1 (.str "x") [] (by intro w n; simp) (by simp),
   C6_int_float_normalization.2.2.2.1 (.bool true) [] (by intro w x; simp) (by simp)⟩

/-- C10: rendering a `SchemaError` reads `e.path[0]` unconditionally, so
an empty path is an out-of-range runtime panic; every error with a
non-empty path renders to a string. -/
theorem C10_errorString_needs_nonempty_path :
    (∀ (w : String) (g : Value),
        errorString ⟨w, g, []⟩ = .error "runtime error: index out of range") ∧
    (∀ (e : SchemaError), e.path ≠ [] → ∃ s, errorString e = .ok s) := by
  constructor
  · intro w g
    simp [errorString]
  · intro e h
    obtain ⟨w, g, path⟩ := e
    cases path with
    | nil => exact absurd rfl h
    | cons p0 rest =>
        by_cases h1 : w = ""
        · exact ⟨_, by simp [errorString, h1]; rfl⟩
        · by_cases h2 : g = .absent
          · exact ⟨_, by simp [errorString, h1, h2]; rfl⟩
          · exact ⟨_, by simp [errorString, h1, h2]; rfl⟩

/-- Witness for C10: a concrete error with non-empty path renders. -/
theorem C10_witness :
    ∃ s, errorString ⟨"bool", .absent, [".", ".", "a"]⟩ = .ok s :=
  C10_errorString_needs_nonempty_path.2 ⟨"bool", .absent, [".", ".", "a"]⟩ (by simp)

/-- C3: `oneOfC` tries the options in declaration order on the same value
and path: when every earlier option returns a validation error and option
`o` succeeds, the whole `OneOf` returns o's coercion (so the earliest
accepting option wins); when every option fails, the result is an error
with empty expected description and nil offending value at the given
path, and the probing options' child errors are discarded. -/
theorem C3_oneOf_order_and_failure :
    (∀ (pre : List Checker) (o : Checker) (rest : List Checker) (v : Value) (path : List String) (w : Value),
        (∀ c ∈ pre, ∃ e, coerce c v path = .err e) →
        coerce o v path = .ok w →
        coerce (.oneOfC (pre ++ o :: rest)) v path = .ok w) ∧
    (∀ (options : List Checker) (v : Value) (path : List String),
        (∀ c ∈ options, ∃ e, coerce c v path = .err e) →
        coerce (.oneOfC options) v path = .err ⟨"", .absent, path⟩) := by
  constructor
  · intro pre o rest v path w hpre hok
    rw [coerce_oneOfC]
    induction pre with
    | nil =>
        simp only [List.nil_append]
        rw [coerceOneOf, hok]
    | cons c pre ih =>
        obtain ⟨e, he⟩ := hpre c (List.mem_cons_self c pre)
        simp only [List.cons_append]
        rw [coerceOneOf, he]
        exact ih fun c2 hc2 => hpre c2 (List.mem_cons_of_mem c hc2)
  · intro options v path h
    rw [coerce_oneOfC]
    induction options with
    | nil => rw [coerceOneOf]
    | cons c rest ih =>
        obtain ⟨e, he⟩ := h c (List.mem_cons_self c rest)
        rw [coerceOneOf, he]
        exact ih fun c2 hc2 => h c2 (List.mem_cons_of_mem c hc2)

/-- Witness for C3: `OneOf(Bool(), Int())` accepts the integer 5 through
its second option, and fails on a string with the empty-want error. -/
theorem C3_witness :
    coerce (.oneOfC [.boolC, .intC]) (.int .i 5) [] = .ok (.int .i64 5) ∧
    coerce (.oneOfC [.boolC, .intC]) (.str "x") [] = .err ⟨"", .absent, []⟩ := by
  constructor
  · exact C3_oneOf_order_and_failure.1 [.boolC] .intC [] (.int .i 5) [] (.int .i64 5)
      (by intro c hc
          simp at hc
          subst hc
          exact ⟨⟨"bool", .int .i 5, []⟩, by simp [coerce]⟩)
      (by simp [coerce])
  · exact C3_oneOf_order_and_failure.2 [.boolC, .intC] (.str "x") []
      (by intro c hc
          simp at hc
          rcases hc with h | h <;> subst h
          · exact ⟨⟨"bool", .str "x", []⟩, by simp [coerce]⟩
          · exact ⟨⟨"int", .str "x", []⟩, by simp [coerce]⟩)

/-- Characterization of a successful candidate collection: the supplied
checkers are exactly the collected `fieldMapC` data, each declaring the
selector. -/
theorem collect_ok_char (selector : String) :
    ∀ (maps : List Checker) (fs : List (List (String × Checker) × List String)),
      collectFieldMaps selector maps = .ok fs →
      maps = fs.map (fun p => Checker.fieldMapC p.1 p.2) ∧
      ∀ p ∈ fs, (lookupField p.1 selector).isSome = true := by
  intro maps
  induction maps with
  | nil =>
      intro fs h
      simp only [collectFieldMaps] at h
      injection h with h
      subst h
      simp
  | cons m rest ih =>
      intro fs h
      cases m
      case fieldMapC f o =>
        simp only [collectFieldMaps] at h
        cases hl : lookupField f selector with
        | none => simp [hl] at h
        | some ck =>
            simp only [hl] at h
            cases hr : collectFieldMaps selector rest with
            | ok fs2 =>
                simp only [hr] at h
                injection h with h
                subst h
                obtain ⟨h1, h2⟩ := ih fs2 hr
                constructor
                · simp only [List.map_cons]
                  rw [← h1]
                · intro p hp
                  rcases List.mem_cons.mp hp with h3 | h3
                  · subst h3
                    simp [hl]
                  · exact h2 p h3
            | error e => simp [hr] at h
      all_goals simp [collectFieldMaps] at h
  
/-- Existence of a successful candidate collection when every supplied
checker is a `fieldMapC` declaring the selector. -/
theorem collect_ok_exists (selector : String) :
    ∀ (maps : List Checker),
      (∀ m ∈ maps, ∃ f o, m = Checker.fieldMapC f o ∧ (lookupField f selector).isSome = true) →
      ∃ fs, collectFieldMaps selector maps = .ok fs := by
  intro maps
  induction maps with
  | nil => exact fun h => ⟨[], rfl⟩
  | cons m rest ih =>
      intro h
      obtain ⟨f, o, hm, hsome⟩ := h m (List.mem_cons_self m rest)
      subst hm
      obtain ⟨ck, hl⟩ := Option.isSome_iff_exists.mp hsome
      obtain ⟨fs, hr⟩ := ih fun m2 hm2 => h m2 (List.mem_cons_of_mem _ hm2)
      exact ⟨(f, o) :: fs, by simp [collectFieldMaps, hl, hr]⟩

/-- C7: the `FieldMapSet` constructor succeeds exactly when every
candidate is a structural (`fieldMapC`) checker declaring a rule for the
selector field; any violation is a construction-time panic (an
`Except.error`, a kind distinct from the per-value `SchemaError`) raised
immediately by the constructor; and a successful construction yields the
`mapSetC` checker over exactly the given candidates, so no defect is
deferred into per-value coercion. -/
theorem C7_fieldMapSet_construction_guard :
    ∀ (selector : String) (maps : List Checker),
      ((∃ c, FieldMapSet selector maps = .ok c) ↔
        ∀ m ∈ maps, ∃ f o, m = Checker.fieldMapC f o ∧ (lookupField f selector).isSome = true) ∧
      (∀ c, FieldMapSet selector maps = .ok c →
        ∃ fmaps, c = .mapSetC selector fmaps ∧
          maps = fmaps.map (fun p => Checker.fieldMapC p.1 p.2) ∧
          ∀ p ∈ fmaps, (lookupField p.1 selector).isSome = true) := by
  intro selector maps
  constructor
  · constructor
    · rintro ⟨c, hc⟩
      unfold FieldMapSet at hc
      split at hc
      next fs hfs =>
        obtain ⟨h1, h2⟩ := collect_ok_char selector maps fs hfs
        intro m hm
        rw [h1] at hm
        obtain ⟨p, hp, hpe⟩ := List.mem_map.mp hm
        exact ⟨p.1, p.2, hpe.symm, h2 p hp⟩
      next e he => cases hc
    · intro h
      obtain ⟨fs, hfs⟩ := collect_ok_exists selector maps h
      exact ⟨.mapSetC selector fs, by simp [FieldMapSet, hfs]⟩
  · intro c hc
    unfold FieldMapSet at hc
    split at hc
    next fs hfs =>
      injection hc with hc
      subst hc
      obtain ⟨h1, h2⟩ := collect_ok_char selector maps fs hfs
      exact ⟨fs, rfl, h1, h2⟩
    next e he => cases hc

/-- Witness for C7: constructing a discriminated union from one
well-formed structural candidate succeeds. -/
theorem C7_witness :
    ∃ c, FieldMapSet "kind" [.fieldMapC [("kind", .constC (.str "a"))] []] = .ok c :=
  (C7_fieldMapSet_construction_guard "kind" [.fieldMapC [("kind", .constC (.str "a"))] []]).1.mpr
    (by intro m hm
        simp at hm
        subst hm
        exact ⟨[("kind", .constC (.str "a"))], [], rfl, by simp [lookupField]⟩)

/-- First-failure characterization of the `listC` element loop: if every
element of `pre` coerces successfully at its own index path and the next
element fails, the loop returns that error unchanged. -/
theorem coerceListElems_err (elem : Checker) (path : List String) :
    ∀ (pre : List Value) (x : Value) (rest : List Value) (i : Nat) (out : List Value) (e : SchemaError),
      (∀ j : Fin pre.length, ∃ w, coerce elem (pre.get j) (path ++ ["[", toString (i + j.val), "]"]) = .ok w) →
      coerce elem x (path ++ ["[", toString (i + pre.length), "]"]) = .err e →
      coerceListElems elem (pre ++ x :: rest) i out path = .err e := by
  intro pre
  induction pre with
  | nil =>
      intro x rest i out e hpre hx
      rw [List.nil_append, coerceListElems]
      have heq : i + ([] : List Value).length = i := by simp
      rw [heq] at hx
      rw [hx]
  | cons p pre2 ih =>
      intro x rest i out e hpre hx
      obtain ⟨w, hw⟩ := hpre ⟨0, by simp⟩
      simp only [List.get_eq_getElem, List.getElem_cons_zero, Nat.add_zero] at hw
      rw [List.cons_append, coerceListElems, hw]
      apply ih x rest (i + 1) (out ++ [w]) e
      · intro j
        obtain ⟨w2, hw2⟩ := hpre ⟨j.val + 1, by have := j.isLt; simp only [List.length_cons]; omega⟩
        refine ⟨w2, ?_⟩
        simp only [List.get_eq_getElem, List.getElem_cons_succ] at hw2
        rw [show i + 1 + j.val = i + (j.val + 1) from by omega]
        exact hw2
      · rw [show i + 1 + pre2.length = i + (p :: pre2).length from by simp only [List.length_cons]; omega]
        exact hx

/-- Success characterization of the `listC` element loop: if every element
coerces successfully at its own index path, the loop appends the coerced
elements, in order, to the accumulator. -/
theorem coerceListElems_ok (elem : Checker) (path : List String) :
    ∀ (xs ys : List Value) (hlen : xs.length = ys.length) (i : Nat) (out : List Value),
      (∀ j : Fin xs.length,
          coerce elem (xs.get j) (path ++ ["[", toString (i + j.val), "]"]) = .ok (ys.get (Fin.cast hlen j))) →
      coerceListElems elem xs i out path = .ok (.list (out ++ ys)) := by
  intro xs
  induction xs with
  | nil =>
      intro ys hlen i out hall
      have : ys = [] := List.eq_nil_of_length_eq_zero hlen.symm
      subst this
      rw [coerceListElems]
      simp
  | cons x xs2 ih =>
      intro ys hlen i out hall
      cases ys with
      | nil => simp at hlen
      | cons y ys2 =>
          have h0 := hall ⟨0, by simp⟩
          simp only [List.get_eq_getElem, List.getElem_cons_zero, Nat.add_zero, Fin.cast] at h0
          simp only [coerceListElems, h0]
          have hres := ih ys2 (by simpa using hlen) (i + 1) (out ++ [y]) ?_
          · rw [hres]
            simp
          · intro j
            have hj := hall ⟨j.val + 1, by have := j.isLt; simp only [List.length_cons]; omega⟩
            simp only [List.get_eq_getElem, List.getElem_cons_succ, Fin.cast] at hj ⊢
            rw [show i + 1 + j.val = i + (j.val + 1) from by omega]
            exact hj

/-- C4: `listC` rejects any non-sequence with "list"; on a sequence it
applies the element checker to each element in index order with the path
extended by the index placeholder holding that element's index, returning
the first element error immediately with no partial result, and on
success returns the new sequence of coerced elements with the same length
and order as the input. -/
theorem C4_list_coercion :
    (∀ (elem : Checker) (v : Value) (path : List String),
        (∀ xs, v ≠ .list xs) → coerce (.listC elem) v path = .err ⟨"list", v, path⟩) ∧
    (∀ (elem : Checker) (path : List String) (pre : List Value) (x : Value) (rest : List Value) (e : SchemaError),
        (∀ j : Fin pre.length, ∃ w, coerce elem (pre.get j) (path ++ ["[", toString j.val, "]"]) = .ok w) →
        coerce elem x (path ++ ["[", toString pre.length, "]"]) = .err e →
        coerce (.listC elem) (.list (pre ++ x :: rest)) path = .err e) ∧
    (∀ (elem : Checker) (path : List String) (xs ys : List Value) (hlen : xs.length = ys.length),
        (∀ j : Fin xs.length,
            coerce elem (xs.get j) (path ++ ["[", toString j.val, "]"]) = .ok (ys.get (Fin.cast hlen j))) →
        coerce (.listC elem) (.list xs) path = .ok (.list ys)) := by
  refine ⟨?_, ?_, ?_⟩
  · intro elem v path hnl
    cases v with
    | list xs => exact absurd rfl (hnl xs)
    | absent => simp [coerce]
    | bool b => simp [coerce]
    | int w n => simp [coerce]
    | float w x => simp [coerce]
    | str s => simp [coerce]
    | map m => simp [coerce]
  · intro elem path pre x rest e hpre hx
    rw [coerce_listC_list]
    apply coerceListElems_err elem path pre x rest 0 [] e
    · intro j
      simpa using hpre j
    · simpa using hx
  · intro elem path xs ys hlen hall
    rw [coerce_listC_list]
    have := coerceListElems_ok elem path xs ys hlen 0 [] ?_
    · simpa using this
    · intro j
      simpa using hall j

/-- Witness for C4: `List(Int())` rejects the integer 7 with "list",
fails on `[1, "x"]` at index 1 with "int", and coerces `[1, 2]` to the
sequence of 64-bit 1 and 2. -/
theorem C4_witness :
    coerce (.listC .intC) (.int .i 7) ["."] = .err ⟨"list", .int .i 7, ["."]⟩ ∧
    coerce (.listC .intC) (.list [.int .i8 1, .str "x"]) [] = .err ⟨"int", .str "x", ["[", "1", "]"]⟩ ∧
    coerce (.listC .intC) (.list [.int .i8 1, .int .i 2]) [] = .ok (.list [.int .i64 1, .int .i64 2]) := by
  refine ⟨?_, ?_, ?_⟩
  · exact C4_list_coercion.1 .intC (.int .i 7) ["."] (by intro xs; simp)
  · have := C4_list_coercion.2.1 .intC [] [.int .i8 1] (.str "x") [] ⟨"int", .str "x", ["[", "1", "]"]⟩
      (by intro j
          match j with
          | ⟨0, h⟩ => exact ⟨.int .i64 1, by simp [coerce]⟩)
      (by simp [coerce]
          rfl)
    simpa using this
  · have h2 : ([Value.int .i8 1, Value.int .i 2]).length = ([Value.int .i64 1, Value.int .i64 2]).length := by simp
    have := C4_list_coercion.2.2 .intC [] [.int .i8 1, .int .i 2] [.int .i64 1, .int .i64 2] h2
      (by intro j
          match j with
          | ⟨0, h⟩ => simp [coerce, Fin.cast]
          | ⟨1, h⟩ => simp [coerce, Fin.cast])
    simpa using this

/-- The per-entry step of `mapC.Coerce`: the key is coerced at the
unextended path and the value at the path extended by the key placeholder
carrying the `fmt.Sprint` rendering of the original key. -/
def entryOk (key value : Checker) (path : List String) (p q : Value × Value) : Prop :=
  coerce key p.1 path = .ok q.1 ∧ coerce value p.2 (path ++ [".", goSprint p.1]) = .ok q.2

/-- Go's map-building loop: write each coerced pair into the output map in
enumeration order (overwriting on equal keys). -/
def buildMap (out : List (Value × Value)) (pairs : List (Value × Value)) : List (Value × Value) :=
  pairs.foldl (fun acc q => insertGo acc q.1 q.2) out

/-- Success characterization of the `mapC` entry loop: if the entries
coerce pairwise to `cps`, the loop writes the coerced pairs into the
output map in order. -/
theorem coerceMapEntries_ok (key value : Checker) (path : List String) :
    ∀ (entries cps : List (Value × Value)), List.Forall₂ (entryOk key value path) entries cps →
      ∀ out, coerceMapEntries key value entries out path = .ok (.map (buildMap out cps)) := by
  intro entries cps hfa
  induction hfa with
  | nil =>
      intro out
      rw [coerceMapEntries]
      simp [buildMap]
  | @cons a b l1 l2 hpq htail ih =>
      intro out
      obtain ⟨k, x⟩ := a
      obtain ⟨k2, v2⟩ := b
      obtain ⟨hk, hv⟩ := hpq
      have hk2 : coerce key k path = .ok k2 := hk
      have hv2 : coerce value x (path ++ [".", goSprint k]) = .ok v2 := hv
      simp only [coerceMapEntries, hk2, hv2]
      rw [ih]
      simp [buildMap]

/-- First-failure characterization of the `mapC` entry loop: after a
prefix of fully successful entries, a failing key coercion (or a failing
value coercion after a successful key) aborts with that error. -/
theorem coerceMapEntries_err (key value : Checker) (path : List String) :
    ∀ (pre : List (Value × Value)) (k x : Value) (rest : List (Value × Value)) (e : SchemaError),
      (∀ p ∈ pre, ∃ q, entryOk key value path p q) →
      (coerce key k path = .err e ∨
        (∃ k2, coerce key k path = .ok k2 ∧ coerce value x (path ++ [".", goSprint k]) = .err e)) →
      ∀ out, coerceMapEntries key value (pre ++ (k, x) :: rest) out path = .err e := by
  intro pre
  induction pre with
  | nil =>
      intro k x rest e _ hfail out
      rcases hfail with hk | ⟨k2, hk, hv⟩
      · rw [List.nil_append, coerceMapEntries, hk]
      · rw [List.nil_append]
        simp only [coerceMapEntries, hk, hv]
  | cons p pre2 ih =>
      obtain ⟨pk, px⟩ := p
      intro k x rest e hpre hfail out
      obtain ⟨q, hq1, hq2⟩ := hpre (pk, px) (List.mem_cons_self _ pre2)
      have h1 : coerce key pk path = .ok q.1 := hq1
      have h2 : coerce value px (path ++ [".", goSprint pk]) = .ok q.2 := hq2
      rw [List.cons_append]
      simp only [coerceMapEntries, h1, h2]
      exact ih k x rest e (fun p2 hp2 => hpre p2 (List.mem_cons_of_mem _ hp2)) hfail (insertGo out q.1 q.2)

/-- C5: `mapC` rejects any non-mapping with "map"; each entry's key is
coerced at the unextended path and its value at the path extended by the
key placeholder holding the original key's string rendering; the first
failure of either coercion is returned unchanged; and on success the
result is a new mapping built from the coerced keys and values. -/
theorem C5_map_coercion :
    (∀ (key value : Checker) (v : Value) (path : List String),
        (∀ m, v ≠ .map m) → coerce (.mapC key value) v path = .err ⟨"map", v, path⟩) ∧
    (∀ (key value : Checker) (path : List String) (pre : List (Value × Value)) (k x : Value) (rest : List (Value × Value)) (e : SchemaError),
        (∀ p ∈ pre, ∃ q, entryOk key value path p q) →
        (coerce key k path = .err e ∨
          (∃ k2, coerce key k path = .ok k2 ∧ coerce value x (path ++ [".", goSprint k]) = .err e)) →
        coerce (.mapC key value) (.map (pre ++ (k, x) :: rest)) path = .err e) ∧
    (∀ (key value : Checker) (path : List String) (entries cps : List (Value × Value)),
        List.Forall₂ (entryOk key value path) entries cps →
        coerce (.mapC key value) (.map entries) path = .ok (.map (buildMap [] cps))) := by
  refine ⟨?_, ?_, ?_⟩
  · intro key value v path hnm
    cases v with
    | map m => exact absurd rfl (hnm m)
    | absent => simp [coerce]
    | bool b => simp [coerce]
    | int w n => simp [coerce]
    | float w x => simp [coerce]
    | str s => simp [coerce]
    | list xs => simp [coerce]
  · intro key value path pre k x rest e hpre hfail
    rw [coerce_mapC_map]
    exact coerceMapEntries_err key value path pre k x rest e hpre hfail []
  · intro key value path entries cps hfa
    rw [coerce_mapC_map]
    exact coerceMapEntries_ok key value path entries cps hfa []

/-- Witness for C5: `Map(String(), Int())` coerces a two-entry string-to-
integer mapping, fails on a boolean key with "string" at the unextended
path, and rejects a non-mapping with "map". -/
theorem C5_witness :
    coerce (.mapC .stringC .intC) (.map [(.str "a", .int .i8 1), (.str "b", .int .i 2)]) ["."] =
      .ok (.map [(.str "a", .int .i64 1), (.str "b", .int .i64 2)]) ∧
    coerce (.mapC .stringC .intC) (.map [(.bool true, .int .i8 1)]) ["."] =
      .err ⟨"string", .bool true, ["."]⟩ ∧
    coerce (.mapC .stringC .intC) (.str "zap") ["."] = .err ⟨"map", .str "zap", ["."]⟩ := by
  refine ⟨?_, ?_, ?_⟩
  · have := C5_map_coercion.2.2 .stringC .intC ["."]
      [(.str "a", .int .i8 1), (.str "b", .int .i 2)]
      [(.str "a", .int .i64 1), (.str "b", .int .i64 2)]
      (by refine List.Forall₂.cons ⟨?_, ?_⟩ (List.Forall₂.cons ⟨?_, ?_⟩ List.Forall₂.nil)
          · simp [coerce]
          · simp [coerce]
          · simp [coerce]
          · simp [coerce])
    rw [this]
    simp [buildMap, insertGo]
  · have := C5_map_coercion.2.1 .stringC .intC ["."] [] (.bool true) (.int .i8 1) []
      ⟨"string", .bool true, ["."]⟩
      (by intro p hp; simp at hp)
      (Or.inl (by simp [coerce]))
    simpa using this
  · exact C5_map_coercion.1 .stringC .intC (.str "zap") ["."] (by intro m; simp)

/-- One probe of the `mapSetC` candidate loop: the candidate's
selector-field checker alone, applied to the raw selector value at the
unextended path; a candidate without the selector field is a nil
`Checker`, whose method call panics. -/
def selProbe (selector : String) (fm : List (String × Checker) × List String) (selv : Value) (path : List String) : Res :=
  match lookupField fm.1 selector with
  | some ck => coerce ck selv path
  | none => .panicked nilCheckerPanic

/-- All-probes-fail characterization of the `mapSetC` candidate loop. -/
theorem coerceMapSet_all_fail (selector : String) (selv v : Value) (path : List String) :
    ∀ (fmaps : List (List (String × Checker) × List String)),
      (∀ fm ∈ fmaps, ∃ e, selProbe selector fm selv path = .err e) →
      coerceMapSet selector fmaps selv v path = .err ⟨"supported selector", selv, path ++ [".", selector]⟩ := by
  intro fmaps
  induction fmaps with
  | nil =>
      intro _
      rw [coerceMapSet]
  | cons fm rest ih =>
      obtain ⟨f, o⟩ := fm
      intro h
      obtain ⟨e, he⟩ := h (f, o) (List.mem_cons_self _ rest)
      rw [coerceMapSet]
      split
      next heq =>
        simp [selProbe, heq] at he
      next ck heq =>
        simp only [selProbe, heq] at he
        simp only [he]
        exact ih fun fm2 hm2 => h fm2 (List.mem_cons_of_mem _ hm2)

/-- First-accepting-probe characterization of the `mapSetC` candidate
loop: the earlier candidates' probes all fail, this candidate's probe
accepts, and the whole input is then coerced with this candidate's full
structural checker. -/
theorem coerceMapSet_first_accepting (selector : String) (selv v : Value) (path : List String) :
    ∀ (pre : List (List (String × Checker) × List String)) (fm : List (String × Checker) × List String) (rest : List (List (String × Checker) × List String)),
      (∀ fm2 ∈ pre, ∃ e, selProbe selector fm2 selv path = .err e) →
      (∃ w, selProbe selector fm selv path = .ok w) →
      coerceMapSet selector (pre ++ fm :: rest) selv v path = coerce (.fieldMapC fm.1 fm.2) v path := by
  intro pre
  induction pre with
  | nil =>
      intro fm rest _ hacc
      obtain ⟨f, o⟩ := fm
      obtain ⟨w, hw⟩ := hacc
      rw [List.nil_append, coerceMapSet]
      split
      next heq =>
        simp [selProbe, heq] at hw
      next ck heq =>
        simp only [selProbe, heq] at hw
        simp only [hw]
        try rfl
  | cons fm2 pre2 ih =>
      obtain ⟨f2, o2⟩ := fm2
      intro fm rest hpre hacc
      obtain ⟨e, he⟩ := hpre (f2, o2) (List.mem_cons_self _ pre2)
      rw [List.cons_append, coerceMapSet]
      split
      next heq =>
        simp [selProbe, heq] at he
      next ck heq =>
        simp only [selProbe, heq] at he
        simp only [he]
        exact ih fm rest (fun fm3 hm3 => hpre fm3 (List.mem_cons_of_mem _ hm3)) hacc

/-- C2: `mapSetC` rejects non-mappings with "map"; an absent selector
field fails with "supported selector", nil offending value, at the path
extended by the selector name; a present selector value is probed against
the candidates' selector-field checkers in declaration order and the
whole input mapping is coerced with the first accepting candidate's full
structural checker (re-validating every field, the selector included);
when no candidate's selector checker accepts, the error is "supported
selector" carrying the raw selector value. -/
theorem C2_fieldMapSet_coercion :
    (∀ (selector : String) (fmaps : List (List (String × Checker) × List String)) (v : Value) (path : List String),
        (∀ m, v ≠ .map m) →
        coerce (.mapSetC selector fmaps) v path = .err ⟨"map", v, path⟩) ∧
    (∀ (selector : String) (fmaps : List (List (String × Checker) × List String)) (entries : List (Value × Value)) (path : List String),
        lookupVal entries (.str selector) = none →
        coerce (.mapSetC selector fmaps) (.map entries) path =
          .err ⟨"supported selector", .absent, path ++ [".", selector]⟩) ∧
    (∀ (selector : String) (entries : List (Value × Value)) (path : List String) (selv : Value)
        (pre : List (List (String × Checker) × List String)) (fm : List (String × Checker) × List String) (rest : List (List (String × Checker) × List String)),
        lookupVal entries (.str selector) = some selv →
        (∀ fm2 ∈ pre, ∃ e, selProbe selector fm2 selv path = .err e) →
        (∃ w, selProbe selector fm selv path = .ok w) →
        coerce (.mapSetC selector (pre ++ fm :: rest)) (.map entries) path =
          coerce (.fieldMapC fm.1 fm.2) (.map entries) path) ∧
    (∀ (selector : String) (fmaps : List (List (String × Checker) × List String)) (entries : List (Value × Value)) (path : List String) (selv : Value),
        lookupVal entries (.str selector) = some selv →
        (∀ fm ∈ fmaps, ∃ e, selProbe selector fm selv path = .err e) →
        coerce (.mapSetC selector fmaps) (.map entries) path =
          .err ⟨"supported selector", selv, path ++ [".", selector]⟩) := by
  refine ⟨?_, ?_, ?_, ?_⟩
  · intro selector fmaps v path hnm
    cases v with
    | map m => exact absurd rfl (hnm m)
    | absent => simp [coerce]
    | bool b => simp [coerce]
    | int w n => simp [coerce]
    | float w x => simp [coerce]
    | str s => simp [coerce]
    | list xs => simp [coerce]
  · intro selector fmaps entries path hsel
    rw [coerce_mapSetC_map]
    simp [hsel]
  · intro selector entries path selv pre fm rest hsel hpre hacc
    rw [coerce_mapSetC_map]
    simp only [hsel]
    exact coerceMapSet_first_accepting selector selv (.map entries) path pre fm rest hpre hacc
  · intro selector fmaps entries path selv hsel hfail
    rw [coerce_mapSetC_map]
    simp only [hsel]
    exact coerceMapSet_all_fail selector selv (.map entries) path fmaps hfail

/-- Witness for C2: the discriminated union over kinds "a" and "b"
selects the second candidate on selector value "b" and re-coerces the
whole mapping with it, and reports "supported selector" with the raw
value "c" when no candidate accepts. -/
theorem C2_witness :
    coerce (.mapSetC "kind" [([("kind", .constC (.str "a")), ("x", .intC)], []),
                             ([("kind", .constC (.str "b")), ("y", .stringC)], [])])
      (.map [(.str "kind", .str "b"), (.str "y", .str "hi")]) ["."] =
      .ok (.map [(.str "kind", .str "b"), (.str "y", .str "hi")]) ∧
    coerce (.mapSetC "kind" [([("kind", .constC (.str "a")), ("x", .intC)], []),
                             ([("kind", .constC (.str "b")), ("y", .stringC)], [])])
      (.map [(.str "kind", .str "c")]) ["."] =
      .err ⟨"supported selector", .str "c", [".", ".", "kind"]⟩ := by
  constructor
  · have h1 := C2_fieldMapSet_coercion.2.2.1 "kind"
      [(.str "kind", .str "b"), (.str "y", .str "hi")] ["."] (.str "b")
      [([("kind", .constC (.str "a")), ("x", .intC)], [])]
      ([("kind", .constC (.str "b")), ("y", .stringC)], [])
      []
      (by simp [lookupVal])
      (by intro fm2 h
          simp at h
          subst h
          exact ⟨⟨goReprSharp (.str "a"), .str "b", ["."]⟩,
            by simp [selProbe, lookupField, coerce, deepEqual]⟩)
      ⟨.str "b", by simp [selProbe, lookupField, coerce, deepEqual]⟩
    have h2 : coerce (.fieldMapC [("kind", .constC (.str "b")), ("y", .stringC)] [])
        (.map [(.str "kind", .str "b"), (.str "y", .str "hi")]) ["."] =
        .ok (.map [(.str "kind", .str "b"), (.str "y", .str "hi")]) := by
      simp [coerce, coerceFields, lookupVal, isOptional, insertGo, deepEqual]
    exact h1.trans h2
  · exact C2_fieldMapSet_coercion.2.2.2 "kind"
      [([("kind", .constC (.str "a")), ("x", .intC)], []),
       ([("kind", .constC (.str "b")), ("y", .stringC)], [])]
      [(.str "kind", .str "c")] ["."] (.str "c")
      (by simp [lookupVal])
      (by intro fm h
          simp at h
          rcases h with h | h <;> subst h
          · exact ⟨⟨goReprSharp (.str "a"), .str "c", ["."]⟩,
              by simp [selProbe, lookupField, coerce, deepEqual]⟩
          · exact ⟨⟨goReprSharp (.str "b"), .str "c", ["."]⟩,
              by simp [selProbe, lookupField, coerce, deepEqual]⟩)

/-- Writing a fresh key appends the entry. -/
theorem insertGo_fresh :
    ∀ (out : List (Value × Value)) (k v : Value), k ∉ out.map Prod.fst →
      insertGo out k v = out ++ [(k, v)] := by
  intro out
  induction out with
  | nil => intro k v _; rfl
  | cons p rest ih =>
      obtain ⟨k0, v0⟩ := p
      intro k v h
      simp only [List.map_cons, List.mem_cons] at h
      push_neg at h
      have hk : ¬(k0 = k) := fun hh => h.1 hh.symm
      simp only [insertGo, if_neg hk]
      rw [ih k v h.2]
      simp

/-- The keys after a map write: unchanged if the key was present, the key
appended otherwise. -/
theorem insertGo_keys :
    ∀ (out : List (Value × Value)) (k v : Value),
      (insertGo out k v).map Prod.fst =
        if k ∈ out.map Prod.fst then out.map Prod.fst else out.map Prod.fst ++ [k] := by
  intro out
  induction out with
  | nil => intro k v; simp [insertGo]
  | cons p rest ih =>
      obtain ⟨k0, v0⟩ := p
      intro k v
      simp only [insertGo]
      by_cases h : k0 = k
      · subst h
        simp
      · have hk : ¬(k = k0) := fun hh => h hh.symm
        simp only [if_neg h, List.map_cons, ih k v]
        by_cases h2 : k ∈ rest.map Prod.fst
        · simp [h2, hk]
        · simp [h2, hk]

/-- Map writes preserve key distinctness. -/
theorem insertGo_keys_nodup :
    ∀ (out : List (Value × Value)) (k v : Value), (out.map Prod.fst).Nodup →
      ((insertGo out k v).map Prod.fst).Nodup := by
  intro out k v h
  rw [insertGo_keys]
  by_cases h2 : k ∈ out.map Prod.fst
  · simpa [h2] using h
  · simp only [if_neg h2]
    simp [List.nodup_append, h, h2]

/-- Every entry of the written map is an old entry or the written pair. -/
theorem insertGo_mem :
    ∀ (out : List (Value × Value)) (k v : Value) (p : Value × Value),
      p ∈ insertGo out k v → p ∈ out ∨ p = (k, v) := by
  intro out
  induction out with
  | nil => intro k v p h; simp [insertGo] at h; exact Or.inr h
  | cons q rest ih =>
      obtain ⟨k0, v0⟩ := q
      intro k v p h
      simp only [insertGo] at h
      by_cases hk : k0 = k
      · simp only [if_pos hk] at h
        rcases List.mem_cons.mp h with h | h
        · subst hk
          exact Or.inr (by simp [h])
        · exact Or.inl (List.mem_cons_of_mem _ h)
      · simp only [if_neg hk] at h
        rcases List.mem_cons.mp h with h | h
        · exact Or.inl (by simp [h])
        · rcases ih k v p h with h | h
          · exact Or.inl (List.mem_cons_of_mem _ h)
          · exact Or.inr h

/-- Looking up a present key under distinct keys yields its value. -/
theorem lookupVal_of_mem_nodup :
    ∀ (out : List (Value × Value)) (k v : Value),
      (out.map Prod.fst).Nodup → (k, v) ∈ out → lookupVal out k = some v := by
  intro out
  induction out with
  | nil => intro k v _ h; simp at h
  | cons p rest ih =>
      obtain ⟨k0, v0⟩ := p
      intro k v hnd hmem
      simp only [List.map_cons, List.nodup_cons] at hnd
      rcases List.mem_cons.mp hmem with h | h
      · injection h with h1 h2
        subst h1
        subst h2
        simp [lookupVal]
      · have hk : k0 ≠ k := by
          intro hh
          subst hh
          exact hnd.1 (List.mem_map.mpr ⟨(k0, v), h, rfl⟩)
        simp only [lookupVal, if_neg hk]
        exact ih k v hnd.2 h

/-- Looking up a missing key yields nothing. -/
theorem lookupVal_none_of_not_mem :
    ∀ (out : List (Value × Value)) (k : Value), k ∉ out.map Prod.fst →
      lookupVal out k = none := by
  intro out
  induction out with
  | nil => intro k _; rfl
  | cons p rest ih =>
      obtain ⟨k0, v0⟩ := p
      intro k h
      simp only [List.map_cons, List.mem_cons] at h
      push_neg at h
      have hk : ¬(k0 = k) := fun hh => h.1 hh.symm
      simp only [lookupVal, if_neg hk]
      exact ih k h.2

/-- Building over pairwise-fresh keys appends the pairs. -/
theorem buildMap_fresh :
    ∀ (cps out : List (Value × Value)), ((out ++ cps).map Prod.fst).Nodup →
      buildMap out cps = out ++ cps := by
  intro cps
  induction cps with
  | nil => intro out _; simp [buildMap]
  | cons q rest ih =>
      obtain ⟨k, v⟩ := q
      intro out hnd
      have hk : k ∉ out.map Prod.fst := by
        simp only [List.map_append, List.nodup_append] at hnd
        intro hmem
        exact hnd.2.2 hmem (by simp)
      have step : insertGo out k v = out ++ [(k, v)] := insertGo_fresh out k v hk
      simp only [buildMap, List.foldl_cons]
      rw [step]
      have := ih (out ++ [(k, v)]) (by simpa using hnd)
      simp only [buildMap] at this
      rw [this]
      simp

/-- Built maps have distinct keys. -/
theorem buildMap_keys_nodup :
    ∀ (cps out : List (Value × Value)), (out.map Prod.fst).Nodup →
      ((buildMap out cps).map Prod.fst).Nodup := by
  intro cps
  induction cps with
  | nil => intro out h; simpa [buildMap] using h
  | cons q rest ih =>
      obtain ⟨k, v⟩ := q
      intro out h
      simp only [buildMap, List.foldl_cons]
      exact ih (insertGo out k v) (insertGo_keys_nodup out k v h)

/-- Every entry of a built map is an initial entry or one of the written
pairs. -/
theorem buildMap_mem :
    ∀ (cps out : List (Value × Value)) (p : Value × Value),
      p ∈ buildMap out cps → p ∈ out ∨ p ∈ cps := by
  intro cps
  induction cps with
  | nil => intro out p h; simp [buildMap] at h; exact Or.inl h
  | cons q rest ih =>
      obtain ⟨k, v⟩ := q
      intro out p h
      simp only [buildMap, List.foldl_cons] at h
      rcases ih (insertGo out k v) p h with h2 | h2
      · rcases insertGo_mem out k v p h2 with h3 | h3
        · exact Or.inl h3
        · exact Or.inr (by simp [h3])
      · exact Or.inr (List.mem_cons_of_mem _ h2)

/-- The entry coercion of `mapC` as a partial function (the functional
form of `entryOk`). -/
def entryCoerceF (key value : Checker) (path : List String) (p : Value × Value) : Option (Value × Value) :=
  match coerce key p.1 path, coerce value p.2 (path ++ [".", goSprint p.1]) with
  | .ok k2, .ok v2 => some (k2, v2)
  | _, _ => none

/-- The relational and functional entry coercions agree. -/
theorem entryOk_iff (key value : Checker) (path : List String) (p q : Value × Value) :
    entryOk key value path p q ↔ entryCoerceF key value path p = some q := by
  constructor
  · rintro ⟨h1, h2⟩
    simp only [entryCoerceF, h1, h2]
  · intro h
    unfold entryCoerceF at h
    split at h
    next k2 v2 heq1 heq2 =>
      injection h with h
      subst h
      exact ⟨heq1, heq2⟩
    next => cases h

/-- A pairwise-coerced output list is the `filterMap` of the functional
entry coercion. -/
theorem forall2_eq_filterMap (key value : Checker) (path : List String) :
    ∀ (l cps : List (Value × Value)), List.Forall₂ (entryOk key value path) l cps →
      cps = l.filterMap (entryCoerceF key value path) := by
  intro l cps h
  induction h with
  | nil => simp
  | @cons a b l1 l2 hab _ ih =>
      rw [List.filterMap_cons, (entryOk_iff key value path a b).mp hab, ih]

/-- Entry lists whose every entry coerces successfully are pairwise
related to their `filterMap` image. -/
theorem forall2_filterMap_self (key value : Checker) (path : List String) :
    ∀ (l : List (Value × Value)), (∀ p ∈ l, (entryCoerceF key value path p).isSome = true) →
      List.Forall₂ (entryOk key value path) l (l.filterMap (entryCoerceF key value path)) := by
  intro l
  induction l with
  | nil => intro _; exact List.Forall₂.nil
  | cons p rest ih =>
      intro h
      obtain ⟨q, hq⟩ := Option.isSome_iff_exists.mp (h p (List.mem_cons_self p rest))
      rw [List.filterMap_cons, hq]
      exact List.Forall₂.cons ((entryOk_iff key value path p q).mpr hq)
        (ih fun p2 hp2 => h p2 (List.mem_cons_of_mem p hp2))

/-- Pairwise coercion success makes every functional entry coercion
defined. -/
theorem forall2_isSome (key value : Checker) (path : List String) :
    ∀ (l cps : List (Value × Value)), List.Forall₂ (entryOk key value path) l cps →
      ∀ p ∈ l, (entryCoerceF key value path p).isSome = true := by
  intro l cps h
  induction h with
  | nil => intro p hp; simp at hp
  | @cons a b l1 l2 hab _ ih =>
      intro p hp
      rcases List.mem_cons.mp hp with hp | hp
      · subst hp
        rw [(entryOk_iff key value path p b).mp hab]
        rfl
      · exact ih p hp

/-- C8 (amended): coercion is a pure function of the checker, the value
with its concrete entry enumeration order, and the path; and when every
entry of a mapping coerces successfully and the coerced keys are pairwise
distinct, the `mapC` result is independent of the enumeration order up to
a permutation of the result's entries (i.e. as a mapping it is the
same). -/
theorem C8_map_determinism_amended :
    ∀ (key value : Checker) (path : List String) (l1 l2 cps1 : List (Value × Value)),
      l1.Perm l2 →
      List.Forall₂ (entryOk key value path) l1 cps1 →
      (cps1.map Prod.fst).Nodup →
      coerce (.mapC key value) (.map l1) path = .ok (.map cps1) ∧
      ∃ cps2, coerce (.mapC key value) (.map l2) path = .ok (.map cps2) ∧ cps1.Perm cps2 := by
  intro key value path l1 l2 cps1 hperm hfa hnd
  have hcps1 : cps1 = l1.filterMap (entryCoerceF key value path) :=
    forall2_eq_filterMap key value path l1 cps1 hfa
  constructor
  · rw [coerce_mapC_map, coerceMapEntries_ok key value path l1 cps1 hfa []]
    rw [buildMap_fresh cps1 [] (by simpa using hnd)]
    simp
  · have hall2 : ∀ p ∈ l2, (entryCoerceF key value path p).isSome = true := by
      intro p hp
      exact forall2_isSome key value path l1 cps1 hfa p (hperm.mem_iff.mpr hp)
    have hcps2fa := forall2_filterMap_self key value path l2 hall2
    have hpermcps : cps1.Perm (l2.filterMap (entryCoerceF key value path)) := by
      rw [hcps1]
      exact hperm.filterMap (entryCoerceF key value path)
    have hnd2 : ((l2.filterMap (entryCoerceF key value path)).map Prod.fst).Nodup :=
      ((hpermcps.map Prod.fst).nodup_iff).mp hnd
    refine ⟨l2.filterMap (entryCoerceF key value path), ?_, hpermcps⟩
    rw [coerce_mapC_map,
        coerceMapEntries_ok key value path l2 (l2.filterMap (entryCoerceF key value path)) hcps2fa []]
    rw [buildMap_fresh _ [] (by simpa using hnd2)]
    simp

/-- C8 counterexample: the two enumeration orders of the same two-entry
mapping (a boolean key and an integer key, both rejected by the key
checker String) make `Map(String(), Int())` return different errors, so
equal (value, path) as mapping contents do not determine the result. -/
theorem C8_counterexample :
    ([((Value.bool true), Value.int .i64 1), (Value.int .i8 2, Value.int .i64 3)] : List (Value × Value)).Perm
      [(Value.int .i8 2, Value.int .i64 3), ((Value.bool true), Value.int .i64 1)] ∧
    coerce (.mapC .stringC .intC) (.map [(.bool true, .int .i64 1), (.int .i8 2, .int .i64 3)]) [] ≠
      coerce (.mapC .stringC .intC) (.map [(.int .i8 2, .int .i64 3), (.bool true, .int .i64 1)]) [] := by
  constructor
  · exact List.Perm.swap _ _ _
  · intro h
    simp [coerce, coerceMapEntries] at h

/-- Witness for the amended C8: a two-entry string-to-integer mapping and
its reversed enumeration coerce to permuted results. -/
theorem C8_witness :
    coerce (.mapC .stringC .intC) (.map [(.str "a", .int .i8 1), (.str "b", .int .i 2)]) [] =
      .ok (.map [(.str "a", .int .i64 1), (.str "b", .int .i64 2)]) ∧
    ∃ cps2, coerce (.mapC .stringC .intC) (.map [(.str "b", .int .i 2), (.str "a", .int .i8 1)]) [] =
        .ok (.map cps2) ∧
      ([(Value.str "a", Value.int .i64 1), (Value.str "b", Value.int .i64 2)] : List (Value × Value)).Perm cps2 :=
  C8_map_determinism_amended .stringC .intC []
    [(.str "a", .int .i8 1), (.str "b", .int .i 2)]
    [(.str "b", .int .i 2), (.str "a", .int .i8 1)]
    [(.str "a", .int .i64 1), (.str "b", .int .i64 2)]
    (List.Perm.swap _ _ _)
    (List.Forall₂.cons ⟨by simp [coerce], by simp [coerce]⟩
      (List.Forall₂.cons ⟨by simp [coerce], by simp [coerce]⟩ List.Forall₂.nil))
    (by decide)

mutual

/-- Checkers built without the alternative validators (`oneOfC`,
`mapSetC`) and whose structural field lists have distinct names (as Go
`Fields` maps always do). -/
def altFreeWF : Checker → Bool
  | .anyC => true
  | .constC _ => true
  | .oneOfC _ => false
  | .boolC => true
  | .intC => true
  | .floatC => true
  | .stringC => true
  | .sregexpC => true
  | .listC elem => altFreeWF elem
  | .mapC key value => altFreeWF key && altFreeWF value
  | .fieldMapC fields _ => decide (fields.map Prod.fst).Nodup && altFreeWFFields fields
  | .mapSetC _ _ => false

/-- Every field checker of the list is alternative-free and well
formed. -/
def altFreeWFFields : List (String × Checker) → Bool
  | [] => true
  | (_, c) :: rest => altFreeWF c && altFreeWFFields rest

end

/-- Inverse success characterization of the `listC` element loop: a
successful run coerced every element at its own index path and appended
the results, in order, to the accumulator. -/
theorem coerceListElems_ok_inv (elem : Checker) (path : List String) :
    ∀ (xs : List Value) (i : Nat) (out : List Value) (u : Value),
      coerceListElems elem xs i out path = .ok u →
      ∃ (ys : List Value) (hlen : xs.length = ys.length), u = .list (out ++ ys) ∧
        ∀ j : Fin xs.length,
          coerce elem (xs.get j) (path ++ ["[", toString (i + j.val), "]"]) =
            .ok (ys.get (Fin.cast hlen j)) := by
  intro xs
  induction xs with
  | nil =>
      intro i out u h
      rw [coerceListElems] at h
      injection h with h
      exact ⟨[], rfl, by rw [← h]; simp, fun j => j.elim0⟩
  | cons x xs2 ih =>
      intro i out u h
      rw [coerceListElems] at h
      split at h
      next w0 hx =>
        obtain ⟨ys2, hlen2, hu, hall⟩ := ih (i + 1) (out ++ [w0]) u h
        refine ⟨w0 :: ys2, by simp [hlen2], ?_, ?_⟩
        · rw [hu]
          simp
        · intro j
          match j with
          | ⟨0, h0⟩ => simpa using hx
          | ⟨j2 + 1, hj⟩ =>
              have hj2 : j2 < xs2.length := by
                simp only [List.length_cons] at hj
                omega
              have := hall ⟨j2, hj2⟩
              simp only [List.get_eq_getElem, List.getElem_cons_succ, Fin.cast] at this ⊢
              rw [show i + (j2 + 1) = i + 1 + j2 from by omega]
              exact this
      next e hx => simp at h
      next m hx => simp at h

/-- Inverse success characterization of the `mapC` entry loop: a
successful run coerced the entries pairwise and wrote the coerced pairs
into the output map in order. -/
theorem coerceMapEntries_ok_inv (key value : Checker) (path : List String) :
    ∀ (entries : List (Value × Value)) (out : List (Value × Value)) (u : Value),
      coerceMapEntries key value entries out path = .ok u →
      ∃ cps, List.Forall₂ (entryOk key value path) entries cps ∧ u = .map (buildMap out cps) := by
  intro entries
  induction entries with
  | nil =>
      intro out u h
      rw [coerceMapEntries] at h
      injection h with h
      exact ⟨[], List.Forall₂.nil, by rw [← h]; simp [buildMap]⟩
  | cons p rest ih =>
      obtain ⟨k, x⟩ := p
      intro out u h
      rw [coerceMapEntries] at h
      split at h
      next k2 hk =>
        split at h
        next v2 hv =>
          obtain ⟨cps2, hfa, hu⟩ := ih (insertGo out k2 v2) u h
          exact ⟨(k2, v2) :: cps2, List.Forall₂.cons ⟨hk, hv⟩ hfa, by simpa [buildMap] using hu⟩
        next e hv => simp at h
        next m hv => simp at h
      next e hk => simp at h
      next m hk => simp at h

/-- The per-field step of `fieldMapC.Coerce` as a partial function:
`some (field key, coerced value)` when the field contributes an output
entry, `none` when it is skipped (absent and optional) or fails. -/
def fieldResult (optional : List String) (entries : List (Value × Value)) (path : List String) (p : String × Checker) : Option (Value × Value) :=
  match lookupVal entries (.str p.1) with
  | some x =>
      match coerce p.2 x (path ++ [".", p.1]) with
      | .ok w => some (.str p.1, w)
      | _ => none
  | none =>
      if isOptional optional p.1 then none
      else
        match coerce p.2 .absent (path ++ [".", p.1]) with
        | .ok w => some (.str p.1, w)
        | _ => none

/-- A field step that does not abort the loop: it contributes an entry or
is skipped as absent-and-optional. -/
def fieldOk (optional : List String) (entries : List (Value × Value)) (path : List String) (p : String × Checker) : Prop :=
  (fieldResult optional entries path p).isSome = true ∨
    (lookupVal entries (.str p.1) = none ∧ isOptional optional p.1 = true)

/-- Inverse success characterization of the `fieldMapC` field loop: a
successful run had every field contribute or be skipped, and wrote the
contributed entries into the output map in field order. -/
theorem coerceFields_ok_inv :
    ∀ (fields : List (String × Checker)) (optional : List String) (entries : List (Value × Value)) (path : List String) (out : List (Value × Value)) (u : Value),
      coerceFields fields optional entries path out = .ok u →
      (∀ fld ∈ fields, fieldOk optional entries path fld) ∧
      u = .map (buildMap out (fields.filterMap (fieldResult optional entries path))) := by
  intro fields
  induction fields with
  | nil =>
      intro optional entries path out u h
      rw [coerceFields] at h
      injection h with h
      refine ⟨by intro fld hf; simp at hf, ?_⟩
      rw [← h]
      simp [buildMap]
  | cons fld0 rest ih =>
      obtain ⟨k, ck⟩ := fld0
      intro optional entries path out u h
      rw [coerceFields] at h
      split at h
      next hlook =>
        split at h
        next hopt =>
          obtain ⟨hall, hu⟩ := ih optional entries path out u h
          refine ⟨?_, ?_⟩
          · intro fld hf
            rcases List.mem_cons.mp hf with hf | hf
            · subst hf
              exact Or.inr ⟨hlook, hopt⟩
            · exact hall fld hf
          · rw [hu]
            have : fieldResult optional entries path (k, ck) = none := by
              simp [fieldResult, hlook, hopt]
            rw [List.filterMap_cons, this]
        next hopt =>
          split at h
          next w hw =>
            obtain ⟨hall, hu⟩ := ih optional entries path (insertGo out (.str k) w) u h
            have hfr : fieldResult optional entries path (k, ck) = some (.str k, w) := by
              simp only [fieldResult, hlook, hw]
              rw [if_neg (by simpa using hopt)]
            refine ⟨?_, ?_⟩
            · intro fld hf
              rcases List.mem_cons.mp hf with hf | hf
              · subst hf
                exact Or.inl (by simp [hfr])
              · exact hall fld hf
            · rw [hu, List.filterMap_cons, hfr]
              simp [buildMap]
          next e hw => simp at h
          next m hw => simp at h
      next x hlook =>
        split at h
        next w hw =>
          obtain ⟨hall, hu⟩ := ih optional entries path (insertGo out (.str k) w) u h
          have hfr : fieldResult optional entries path (k, ck) = some (.str k, w) := by
            simp [fieldResult, hlook, hw]
          refine ⟨?_, ?_⟩
          · intro fld hf
            rcases List.mem_cons.mp hf with hf | hf
            · subst hf
              exact Or.inl (by simp [hfr])
            · exact hall fld hf
          · rw [hu, List.filterMap_cons, hfr]
            simp [buildMap]
        next e hw => simp at h
        next m hw => simp at h

/-- Forward success characterization of the `fieldMapC` field loop: when
every field contributes or is skipped, the loop succeeds and writes the
contributed entries into the output map in field order. -/
theorem coerceFields_ok_fwd :
    ∀ (fields : List (String × Checker)) (optional : List String) (entries : List (Value × Value)) (path : List String) (out : List (Value × Value)),
      (∀ fld ∈ fields, fieldOk optional entries path fld) →
      coerceFields fields optional entries path out =
        .ok (.map (buildMap out (fields.filterMap (fieldResult optional entries path)))) := by
  intro fields
  induction fields with
  | nil =>
      intro optional entries path out _
      rw [coerceFields]
      simp [buildMap]
  | cons fld0 rest ih =>
      obtain ⟨k, ck⟩ := fld0
      intro optional entries path out hall
      have hhead := hall (k, ck) (List.mem_cons_self _ rest)
      rw [coerceFields]
      cases hlook : lookupVal entries (.str k) with
      | none =>
          by_cases hopt : isOptional optional k
          · have hfr : fieldResult optional entries path (k, ck) = none := by
              simp [fieldResult, hlook, hopt]
            simp only [hlook, hopt, if_true]
            rw [List.filterMap_cons, hfr]
            exact ih optional entries path out fun fld hf => hall fld (List.mem_cons_of_mem _ hf)
          · cases hcw : coerce ck .absent (path ++ [".", k]) with
            | ok w =>
                have hfr : fieldResult optional entries path (k, ck) = some (.str k, w) := by
                  simp only [fieldResult, hlook, hcw]
                  rw [if_neg (by simpa using hopt)]
                simp only [hlook, hopt, if_false, hcw]
                rw [List.filterMap_cons, hfr]
                have := ih optional entries path (insertGo out (.str k) w)
                  fun fld hf => hall fld (List.mem_cons_of_mem _ hf)
                rw [this]
                simp [buildMap]
            | err e =>
                exfalso
                rcases hhead with hs | ⟨_, ho⟩
                · rw [show fieldResult optional entries path (k, ck) = none from by
                      simp only [fieldResult, hlook, hcw]
                      rw [if_neg (by simpa using hopt)]] at hs
                  simp at hs
                · exact hopt (by simpa using ho)
            | panicked m =>
                exfalso
                rcases hhead with hs | ⟨_, ho⟩
                · rw [show fieldResult optional entries path (k, ck) = none from by
                      simp only [fieldResult, hlook, hcw]
                      rw [if_neg (by simpa using hopt)]] at hs
                  simp at hs
                · exact hopt (by simpa using ho)
      | some x =>
          cases hcw : coerce ck x (path ++ [".", k]) with
          | ok w =>
              have hfr : fieldResult optional entries path (k, ck) = some (.str k, w) := by
                simp [fieldResult, hlook, hcw]
              simp only [hlook, hcw]
              rw [List.filterMap_cons, hfr]
              have := ih optional entries path (insertGo out (.str k) w)
                fun fld hf => hall fld (List.mem_cons_of_mem _ hf)
              rw [this]
              simp [buildMap]
          | err e =>
              exfalso
              rcases hhead with hs | ⟨hh, _⟩
              · rw [show fieldResult optional entries path (k, ck) = none from by
                    simp [fieldResult, hlook, hcw]] at hs
                simp at hs
              · rw [hlook] at hh
                cases hh
          | panicked m =>
              exfalso
              rcases hhead with hs | ⟨hh, _⟩
              · rw [show fieldResult optional entries path (k, ck) = none from by
                    simp [fieldResult, hlook, hcw]] at hs
                simp at hs
              · rw [hlook] at hh
                cases hh

/-- Right-membership inversion for pairwise-related lists. -/
theorem forall2_mem_right {α β : Type} {R : α → β → Prop} :
    ∀ {l : List α} {cps : List β}, List.Forall₂ R l cps → ∀ b2 ∈ cps, ∃ a ∈ l, R a b2 := by
  intro l cps h
  induction h with
  | nil => intro b2 hb2; simp at hb2
  | @cons a b l1 l2 hab _ ih =>
      intro b2 hb2
      rcases List.mem_cons.mp hb2 with hb2 | hb2
      · subst hb2
        exact ⟨a, List.mem_cons_self _ _, hab⟩
      · obtain ⟨a2, ha2, har⟩ := ih b2 hb2
        exact ⟨a2, List.mem_cons_of_mem _ ha2, har⟩

/-- A contributed field entry is keyed by the field name and carries a
successful output of the field's checker. -/
theorem fieldResult_some_shape :
    ∀ (optional : List String) (entries : List (Value × Value)) (path : List String) (k : String) (ck : Checker) (r : Value × Value),
      fieldResult optional entries path (k, ck) = some r →
      r.1 = .str k ∧ ∃ x, coerce ck x (path ++ [".", k]) = .ok r.2 := by
  intro optional entries path k ck r h
  cases hlook : lookupVal entries (.str k) with
  | some x =>
      cases hcw : coerce ck x (path ++ [".", k]) with
      | ok w =>
          simp only [fieldResult, hlook, hcw] at h
          injection h with h
          subst h
          exact ⟨rfl, x, hcw⟩
      | err e => simp [fieldResult, hlook, hcw] at h
      | panicked m => simp [fieldResult, hlook, hcw] at h
  | none =>
      by_cases hopt : isOptional optional k
      · simp [fieldResult, hlook, hopt] at h
      · cases hcw : coerce ck .absent (path ++ [".", k]) with
        | ok w =>
            simp only [fieldResult, hlook, hcw] at h
            rw [if_neg hopt] at h
            injection h with h
            subst h
            exact ⟨rfl, .absent, hcw⟩
        | err e => simp [fieldResult, hlook, hcw, hopt] at h
        | panicked m => simp [fieldResult, hlook, hcw, hopt] at h

/-- Distinct field names make the field list function-like. -/
theorem fields_name_unique :
    ∀ (fields : List (String × Checker)), (fields.map Prod.fst).Nodup →
      ∀ (k : String) (a b : Checker), (k, a) ∈ fields → (k, b) ∈ fields → a = b := by
  intro fields
  induction fields with
  | nil => intro _ k a b ha; simp at ha
  | cons p rest ih =>
      obtain ⟨k0, c0⟩ := p
      intro hnd k a b ha hb
      simp only [List.map_cons, List.nodup_cons] at hnd
      rcases List.mem_cons.mp ha with ha | ha <;> rcases List.mem_cons.mp hb with hb | hb
      · injection ha with h1 h2
        injection hb with h3 h4
        rw [h2, h4]
      · injection ha with h1 h2
        exact absurd (List.mem_map.mpr ⟨(k, b), hb, h1⟩) hnd.1
      · injection hb with h3 h4
        exact absurd (List.mem_map.mpr ⟨(k, a), ha, h3⟩) hnd.1
      · exact ih hnd.2 k a b ha hb

/-- Distinct field names yield distinct keys among the contributed
entries. -/
theorem filterMap_fieldResult_keys_nodup :
    ∀ (fields : List (String × Checker)) (optional : List String) (entries : List (Value × Value)) (path : List String),
      (fields.map Prod.fst).Nodup →
      ((fields.filterMap (fieldResult optional entries path)).map Prod.fst).Nodup := by
  intro fields
  induction fields with
  | nil => intro o e p _; simp
  | cons fld rest ih =>
      obtain ⟨k, ck⟩ := fld
      intro o e p hnd
      simp only [List.map_cons, List.nodup_cons] at hnd
      rw [List.filterMap_cons]
      cases hfr : fieldResult o e p (k, ck) with
      | none => exact ih o e p hnd.2
      | some r =>
          simp only [List.map_cons, List.nodup_cons]
          refine ⟨?_, ih o e p hnd.2⟩
          intro hmem
          obtain ⟨r2, hr2mem, hr2eq⟩ := List.mem_map.mp hmem
          obtain ⟨fld2, hfld2, hfr2⟩ := List.mem_filterMap.mp hr2mem
          obtain ⟨k2, ck2⟩ := fld2
          have h1 := (fieldResult_some_shape o e p k ck r hfr).1
          have h2 := (fieldResult_some_shape o e p k2 ck2 r2 hfr2).1
          rw [h2, h1] at hr2eq
          injection hr2eq with hk2
          subst hk2
          exact hnd.1 (List.mem_map.mpr ⟨(k2, ck2), hfld2, rfl⟩)

/-- A skipped field's name is not among the contributed keys (under
distinct field names). -/
theorem filterMap_fieldResult_skip :
    ∀ (fields : List (String × Checker)) (optional : List String) (entries : List (Value × Value)) (path : List String) (k : String) (ck : Checker),
      (fields.map Prod.fst).Nodup → (k, ck) ∈ fields →
      fieldResult optional entries path (k, ck) = none →
      Value.str k ∉ (fields.filterMap (fieldResult optional entries path)).map Prod.fst := by
  intro fields o e p k ck hnd hmem hnone hcontra
  obtain ⟨r, hrmem, hreq⟩ := List.mem_map.mp hcontra
  obtain ⟨fld2, hfld2, hfr2⟩ := List.mem_filterMap.mp hrmem
  obtain ⟨k2, ck2⟩ := fld2
  have h2 := (fieldResult_some_shape o e p k2 ck2 r hfr2).1
  rw [h2] at hreq
  injection hreq with hk2
  subst hk2
  have heq := fields_name_unique fields hnd k2 ck2 ck hfld2 hmem
  subst heq
  rw [hnone] at hfr2
  cases hfr2

/-- A member checker of a field list is smaller than the list. -/
theorem mem_fields_sizeOf_lt :
    ∀ (fields : List (String × Checker)) (k : String) (ck : Checker),
      (k, ck) ∈ fields → sizeOf ck < sizeOf fields := by
  intro fields
  induction fields with
  | nil => intro k ck h; simp at h
  | cons p rest ih =>
      obtain ⟨k0, c0⟩ := p
      intro k ck h
      rcases List.mem_cons.mp h with h | h
      · injection h with h1 h2
        subst h2
        simp
        omega
      · have := ih k ck h
        simp
        omega

/-- Member checkers of an alternative-free field list are alternative
free. -/
theorem altFreeWFFields_mem :
    ∀ (fields : List (String × Checker)) (k : String) (ck : Checker),
      altFreeWFFields fields = true → (k, ck) ∈ fields → altFreeWF ck = true := by
  intro fields
  induction fields with
  | nil => intro k ck _ h; simp at h
  | cons p rest ih =>
      obtain ⟨k0, c0⟩ := p
      intro k ck hwf h
      rw [altFreeWFFields, Bool.and_eq_true] at hwf
      rcases List.mem_cons.mp h with h | h
      · injection h with h1 h2
        subst h2
        exact hwf.1
      · exact ih k ck hwf.2 h

/-- filterMap only depends on the function's values on the list. -/
theorem filterMap_congr_mem {α β : Type} (f g : α → Option β) :
    ∀ (l : List α), (∀ a ∈ l, f a = g a) → l.filterMap f = l.filterMap g := by
  intro l
  induction l with
  | nil => intro _; rfl
  | cons a rest ih =>
      intro h
      rw [List.filterMap_cons, List.filterMap_cons, h a (List.mem_cons_self _ _),
          ih fun a2 ha2 => h a2 (List.mem_cons_of_mem _ ha2)]

/-- Idempotence of alternative-free well-formed checkers, by strong
induction on the checker size: a successful coercion's output re-coerces
to itself under any path. -/
theorem idem_aux :
    ∀ (n : Nat) (c : Checker), sizeOf c ≤ n → altFreeWF c = true →
      ∀ (v : Value) (p : List String) (w : Value), coerce c v p = .ok w →
        ∀ (q : List String), coerce c w q = .ok w := by
  intro n
  induction n with
  | zero =>
      intro c hsz
      have := Checker.one_le_sizeOf c
      omega
  | succ n ih =>
      intro c hsz hwf v p w hc q
      cases c with
      | anyC =>
          simp only [coerce] at hc
          injection hc with hc
          subst hc
          simp [coerce]
      | constC x =>
          simp only [coerce] at hc
          split at hc
          next hdeq =>
            injection hc with hc
            subst hc
            simp only [coerce]
            rw [if_pos hdeq]
          next hdeq => simp at hc
      | oneOfC options => simp [altFreeWF] at hwf
      | mapSetC selector fmaps => simp [altFreeWF] at hwf
      | boolC =>
          cases v
          all_goals simp only [coerce] at hc
          all_goals first
            | (injection hc with hc; subst hc; simp [coerce])
            | simp at hc
      | intC =>
          cases v
          all_goals simp only [coerce] at hc
          all_goals first
            | (injection hc with hc; subst hc; simp [coerce])
            | simp at hc
      | floatC =>
          cases v
          all_goals simp only [coerce] at hc
          all_goals first
            | (injection hc with hc; subst hc; simp [coerce])
            | simp at hc
      | stringC =>
          cases v
          all_goals simp only [coerce] at hc
          all_goals first
            | (injection hc with hc; subst hc; simp [coerce])
            | simp at hc
      | sregexpC =>
          cases v
          case str s =>
            simp only [coerce] at hc
            split at hc
            next hre =>
              injection hc with hc
              subst hc
              simp only [coerce]
              rw [if_pos hre]
            next hre => simp at hc
          all_goals simp [coerce] at hc
      | listC elem =>
          have hszel : sizeOf elem ≤ n := by
            simp at hsz
            omega
          have hwfe : altFreeWF elem = true := by simpa [altFreeWF] using hwf
          cases v
          case list xs =>
            simp only [coerce] at hc
            obtain ⟨ys, hlen, hu, hall⟩ := coerceListElems_ok_inv elem p xs 0 [] w hc
            rw [List.nil_append] at hu
            subst hu
            rw [coerce_listC_list]
            apply coerceListElems_ok elem q ys ys rfl 0 []
            intro j
            exact ih elem hszel hwfe (xs.get (Fin.cast hlen.symm j))
              (p ++ ["[", toString (0 + (Fin.cast hlen.symm j).val), "]"])
              (ys.get (Fin.cast hlen (Fin.cast hlen.symm j)))
              (hall (Fin.cast hlen.symm j))
              (q ++ ["[", toString (0 + j.val), "]"])
          all_goals simp [coerce] at hc
      | mapC key value =>
          have hszv := Checker.one_le_sizeOf value
          have hszk2 := Checker.one_le_sizeOf key
          simp at hsz
          have hszk : sizeOf key ≤ n := by omega
          have hszval : sizeOf value ≤ n := by omega
          rw [altFreeWF, Bool.and_eq_true] at hwf
          cases v
          case map l =>
            simp only [coerce] at hc
            obtain ⟨cps, hfa, hu⟩ := coerceMapEntries_ok_inv key value p l [] w hc
            subst hu
            have hself : ∀ r ∈ buildMap [] cps, entryOk key value q r r := by
              intro r hr
              rcases buildMap_mem cps [] r hr with h | h
              · simp at h
              · obtain ⟨a, hal, haok⟩ := forall2_mem_right hfa r h
                obtain ⟨hk, hv⟩ := haok
                exact ⟨ih key hszk hwf.1 a.1 p r.1 hk q,
                       ih value hszval hwf.2 a.2 (p ++ [".", goSprint a.1]) r.2 hv
                         (q ++ [".", goSprint r.1])⟩
            rw [coerce_mapC_map,
                coerceMapEntries_ok key value q (buildMap [] cps) (buildMap [] cps)
                  (List.forall₂_same.mpr hself) []]
            rw [buildMap_fresh (buildMap [] cps) []
                  (by simpa using buildMap_keys_nodup cps [] (by simp))]
            simp
          all_goals simp [coerce] at hc
      | fieldMapC fields optional =>
          rw [altFreeWF, Bool.and_eq_true] at hwf
          have hnd : (fields.map Prod.fst).Nodup := of_decide_eq_true hwf.1
          have hwff := hwf.2
          have hszfld : sizeOf fields ≤ n := by
            simp at hsz
            omega
          cases v
          case map l =>
            simp only [coerce] at hc
            obtain ⟨hall, hu⟩ := coerceFields_ok_inv fields optional l p [] w hc
            subst hu
            have hndrs := filterMap_fieldResult_keys_nodup fields optional l p hnd
            have hbm : buildMap [] (fields.filterMap (fieldResult optional l p)) =
                fields.filterMap (fieldResult optional l p) := by
              have := buildMap_fresh (fields.filterMap (fieldResult optional l p)) []
                (by simpa using hndrs)
              simpa using this
            rw [hbm]
            have hfr_eq : ∀ fld ∈ fields,
                fieldResult optional (fields.filterMap (fieldResult optional l p)) q fld =
                  fieldResult optional l p fld := by
              intro fld hmem
              obtain ⟨k, ck⟩ := fld
              cases hfr : fieldResult optional l p (k, ck) with
              | some r =>
                  obtain ⟨hr1, x, hx⟩ := fieldResult_some_shape optional l p k ck r hfr
                  have hrmem : r ∈ fields.filterMap (fieldResult optional l p) :=
                    List.mem_filterMap.mpr ⟨(k, ck), hmem, hfr⟩
                  have hlook2 : lookupVal (fields.filterMap (fieldResult optional l p)) (.str k) =
                      some r.2 := by
                    apply lookupVal_of_mem_nodup _ _ _ hndrs
                    rw [← hr1, Prod.mk.eta]
                    exact hrmem
                  have hck : coerce ck r.2 (q ++ [".", k]) = .ok r.2 :=
                    ih ck (by have h5 := mem_fields_sizeOf_lt fields k ck hmem; omega)
                      (altFreeWFFields_mem fields k ck hwff hmem) x (p ++ [".", k]) r.2 hx
                      (q ++ [".", k])
                  simp only [fieldResult, hlook2, hck]
                  rw [← hr1, Prod.mk.eta]
              | none =>
                  have hok := hall (k, ck) hmem
                  rcases hok with hs | ⟨hlookl, hopt⟩
                  · rw [hfr] at hs
                    simp at hs
                  · have hnotin := filterMap_fieldResult_skip fields optional l p k ck hnd hmem hfr
                    have hlook2 : lookupVal (fields.filterMap (fieldResult optional l p)) (.str k) =
                        none := lookupVal_none_of_not_mem _ _ hnotin
                    simp [fieldResult, hlook2, hopt]
            have hallok : ∀ fld ∈ fields,
                fieldOk optional (fields.filterMap (fieldResult optional l p)) q fld := by
              intro fld hmem
              have hok := hall fld hmem
              obtain ⟨k, ck⟩ := fld
              rcases hok with hs | ⟨hlookl, hopt⟩
              · refine Or.inl ?_
                rw [hfr_eq (k, ck) hmem]
                exact hs
              · have hfr0 : fieldResult optional l p (k, ck) = none := by
                  simp [fieldResult, hlookl, hopt]
                have hnotin := filterMap_fieldResult_skip fields optional l p k ck hnd hmem hfr0
                exact Or.inr ⟨lookupVal_none_of_not_mem _ _ hnotin, hopt⟩
            have hfwd := coerceFields_ok_fwd fields optional
              (fields.filterMap (fieldResult optional l p)) q [] hallok
            rw [coerce_fieldMapC_map, hfwd,
                filterMap_congr_mem _ _ fields hfr_eq, hbm]
          all_goals simp [coerce] at hc

/-- C9 (amended): for every checker built without the alternative
validators (`OneOf`, `FieldMapSet`), re-coercing a successful coercion's
output with the same checker succeeds, at any path, with the same output.
The alternative validators are excluded because re-coercion can make an
earlier alternative accept the already-coerced value and, through
`FieldMap`'s silent dropping of undeclared fields, change the result. -/
theorem C9_idempotence_amended :
    ∀ (c : Checker), altFreeWF c = true →
      ∀ (v : Value) (p : List String) (w : Value), coerce c v p = .ok w →
        ∀ (q : List String), coerce c w q = .ok w :=
  fun c hwf v p w hc q => idem_aux (sizeOf c) c (Nat.le_refl _) hwf v p w hc q

/-- C9 counterexample: `OneOf(FieldMap(a: Const(int64 1)), Map(String(),
Int()))` coerces a two-field mapping through its second option, but
re-coercing that output is accepted by the first option, which drops the
undeclared field "b": the second pass changes the value, refuting
unrestricted idempotence. -/
theorem C9_counterexample :
    coerce (.oneOfC [.fieldMapC [("a", .constC (.int .i64 1))] [], .mapC .stringC .intC])
      (.map [(.str "a", .int .i8 1), (.str "b", .int .i8 2)]) [] =
      .ok (.map [(.str "a", .int .i64 1), (.str "b", .int .i64 2)]) ∧
    coerce (.oneOfC [.fieldMapC [("a", .constC (.int .i64 1))] [], .mapC .stringC .intC])
      (.map [(.str "a", .int .i64 1), (.str "b", .int .i64 2)]) [] =
      .ok (.map [(.str "a", .int .i64 1)]) ∧
    Value.map [(.str "a", .int .i64 1)] ≠
      Value.map [(.str "a", .int .i64 1), (.str "b", .int .i64 2)] := by
  refine ⟨?_, ?_, ?_⟩
  · simp [coerce, coerceOneOf, coerceFields, coerceMapEntries, lookupVal, isOptional, insertGo,
      deepEqual, goSprint]
  · simp [coerce, coerceOneOf, coerceFields, coerceMapEntries, lookupVal, isOptional, insertGo,
      deepEqual, goSprint]
  · simp

/-- Witness for the amended C9: the Int checker normalizes an 8-bit 5 to
the 64-bit 5, and re-coercing that output yields it unchanged. -/
theorem C9_witness :
    coerce .intC (.int .i64 5) [".", "x"] = .ok (.int .i64 5) :=
  C9_idempotence_amended .intC (by simp [altFreeWF]) (.int .i8 5) [] (.int .i64 5)
    (by simp [coerce]) [".", "x"]
